import Mathlib

/-!
demoMAGIC front end: the cart reconciler, the cart total and price parsing.

A shallow embedding of `src/front/app.js`: `applyActions` (lines 171-203),
the clear-cart click handler (lines 68-73), `renderCart` (lines 205-232) and
`parsePrice` (lines 234-242).

Modelling conventions.

* `state.cart` is passed explicitly: every function takes the cart and returns
  the next cart.  The DOM writes of `renderCart` and `updateContactLinks` do
  not touch `state.cart` and are left out.
* An object field that may be missing is an `Option`; `none` is the JavaScript
  `undefined`.  Fields are typed as in the data model of the specification
  (`id`, `title`, `price`, `type` and `itemId` are strings).
* `qty` is an integer valued JavaScript number, modelled by `Int`: the cart
  only counts in steps of 1 from 1, far below `2 ^ 53`, where such numbers are
  exact.
* Other JavaScript numbers are `JSNumber`, the IEEE 754 binary64 values:
  `NaN`, the infinities and the finite values with their sign, signed zeros
  and subnormal numbers included.  `parseFloat`, `+` and `*` round to the
  nearest value, ties to even, and overflow to an infinity.
* A JavaScript string is modelled by `String`; the regular expressions used by
  `parsePrice` only look at ASCII characters, so working on code points instead
  of UTF-16 code units removes the same characters.
-/

namespace DemoMagic

/-! ## Data model -/

/-- The `item` payload of a chat response (`data.item`).  `extra` holds any
further own properties of the object, in order. -/
structure Item where
  id : Option String
  title : Option String
  price : Option String
  type : Option String
  qty : Option Int
  extra : List (String × String)
deriving DecidableEq, Repr

/-- An element of `state.cart`.  Entries are only ever created by
`{ ...item, qty: 1 }`, so `qty` is always a number. -/
structure CartEntry where
  id : Option String
  title : Option String
  price : Option String
  type : Option String
  extra : List (String × String)
  qty : Int
deriving DecidableEq, Repr

/-- An element of `data.actions`. -/
structure Action where
  type : Option String
  itemId : Option String
deriving DecidableEq, Repr

abbrev Cart := List CartEntry

/-! ## JavaScript primitives used by the reconciler -/

/-- JavaScript truthiness of a value that is a string or `undefined`:
only `undefined` and the empty string are falsy. -/
def truthy (v : Option String) : Bool :=
  match v with
  | none => false
  | some s => !(s == "")

/-- `a || b` on values that are strings or `undefined`. -/
def jsOr (a b : Option String) : Option String :=
  if truthy a then a else b

/-- `String.prototype.toUpperCase`, restricted to what the comparison with
`"ADD"`, `"REMOVE"` and `"CLEAR"` can observe: ASCII letters are upper-cased.
No other character has an upper-case mapping that produces one of the letters
of these three words, so the three comparisons agree with JavaScript. -/
def toUpperCase (s : String) : String :=
  String.mk (s.data.map Char.toUpper)

/-- `(action.type || "").toUpperCase()` (line 173). -/
def actionType (action : Action) : String :=
  toUpperCase ((jsOr action.type (some "")).getD "")

/-- `Array.prototype.findIndex`: index of the first element satisfying `p`. -/
def findIndex (p : CartEntry → Bool) : List CartEntry → Option Nat
  | [] => none
  | e :: es => if p e then some 0 else (findIndex p es).map (· + 1)

/-- Assignment `cart[idx].qty = f(cart[idx].qty)` on the entry at `idx`. -/
def updateQtyAt (f : Int → Int) : List CartEntry → Nat → List CartEntry
  | [], _ => []
  | e :: es, 0 => { e with qty := f e.qty } :: es
  | e :: es, n + 1 => e :: updateQtyAt f es n

/-- `cart.splice(idx, 1)`: delete the element at `idx`. -/
def splice1 : List CartEntry → Nat → List CartEntry
  | [], _ => []
  | _ :: es, 0 => es
  | e :: es, n + 1 => e :: splice1 es n

/-- `cart[idx].qty`, for an index returned by `findIndex`. -/
def qtyAt : List CartEntry → Nat → Option Int
  | [], _ => none
  | e :: _, 0 => some e.qty
  | _ :: es, n + 1 => qtyAt es n

/-- The object literal `{ ...item, qty: 1 }` (line 179): every property of the
item is copied, and `qty` is set to 1 whatever the item carried. -/
def newEntry (item : Item) : CartEntry :=
  { id := item.id, title := item.title, price := item.price, type := item.type,
    extra := item.extra, qty := 1 }

/-! ## `applyActions` -/

/-- Lines 174-181: the body of `if (type === "ADD" && item)`.
`find` returns the first entry with `entry.id === item.id`; when there is one
its `qty` is incremented in place, otherwise a new entry is pushed. -/
def addBranch (cart : Cart) (item : Item) : Cart :=
  match findIndex (fun entry => entry.id == item.id) cart with
  | some idx => updateQtyAt (fun q => q + 1) cart idx
  | none => cart ++ [newEntry item]

/-- Line 184: `action.itemId || (item && item.id)`. -/
def removeTargetId (action : Action) (item : Option Item) : Option String :=
  jsOr action.itemId (match item with
    | none => none
    | some it => it.id)

/-- Lines 184-193: the body of `if (type === "REMOVE")`.  The `return` of
line 185 leaves the callback, which has nothing left to do for this type. -/
def removeBranch (cart : Cart) (action : Action) (item : Option Item) : Cart :=
  let itemId := removeTargetId action item
  if !truthy itemId then cart
  else
    match findIndex (fun entry => entry.id == itemId) cart with
    | some idx =>
      match qtyAt cart idx with
      | some q => if q > 1 then updateQtyAt (fun q => q - 1) cart idx else splice1 cart idx
      | none => cart
    | none => cart

/-- The callback of `actions.forEach` (lines 172-199): the three `if`
statements run one after the other on the same `type`. -/
def applyAction (item : Option Item) (cart : Cart) (action : Action) : Cart :=
  let type := actionType action
  let cart1 :=
    match item with
    | some it => if type == "ADD" then addBranch cart it else cart
    | none => cart
  let cart2 := if type == "REMOVE" then removeBranch cart1 action item else cart1
  if type == "CLEAR" then [] else cart2

/-- `applyActions(actions, item)` (lines 171-203) as a function of
`state.cart`: `forEach` visits the actions in array order. -/
def applyActions (actions : List Action) (item : Option Item) (cart : Cart) : Cart :=
  match actions with
  | [] => cart
  | action :: rest => applyActions rest item (applyAction item cart action)

/-- The click handler of the clear-cart button (lines 68-73):
`state.cart = []`. -/
def clearCartClick (_cart : Cart) : Cart := []

/-- A chat session: each response carries a batch of actions and at most one
item; `sendMessage` calls `applyActions` when the batch is not empty. -/
def runBatches (batches : List (List Action × Option Item)) (cart : Cart) : Cart :=
  batches.foldl (fun c b => applyActions b.1 b.2 c) cart

/-- The cart invariant of the data model: every `qty` is at least 1 and no two
entries share an `id`. -/
def CartInv (cart : Cart) : Prop :=
  (∀ e ∈ cart, 1 ≤ e.qty) ∧ (cart.map (fun e => e.id)).Nodup

instance (cart : Cart) : Decidable (CartInv cart) := by
  unfold CartInv; infer_instance

/-! ## JavaScript Numbers -/

/-- A JavaScript Number, that is an IEEE 754 binary64 value: `NaN`, an
infinity, or a finite value `± mantissa * 2 ^ exponent`.  Finite values are
kept in canonical form (see `IsBinary64`): the mantissa is below `2 ^ 53`, the
exponent is between -1074 and 971, and the mantissa is at least `2 ^ 52` unless
the exponent is -1074 (zero and the subnormal numbers).  The sign of zero is
kept. -/
inductive JSNumber where
  | nan
  | infinity (negative : Bool)
  | finite (negative : Bool) (mantissa : Nat) (exponent : Int)
deriving DecidableEq, Repr

/-- The Number `0` (positive zero). -/
def JSNumber.zero : JSNumber := JSNumber.finite false 0 (-1074)

/-- Canonical form of the finite binary64 values. -/
def IsBinary64 (m : Nat) (e : Int) : Prop :=
  m < 2 ^ 53 ∧ -1074 ≤ e ∧ e ≤ 971 ∧ (2 ^ 52 ≤ m ∨ e = -1074)

/-- The rational number a Number stands for (0 for `NaN` and the infinities). -/
def JSNumber.toRat : JSNumber → ℚ
  | JSNumber.finite negative m e => (if negative then -1 else 1) * ((m : ℚ) * (2 : ℚ) ^ e)
  | _ => 0

/-- Binary logarithm of `n`, rounded down, with `fuel` steps allowed. -/
def log2Aux : Nat → Nat → Nat
  | 0, _ => 0
  | fuel + 1, n => if n < 2 then 0 else log2Aux fuel (n / 2) + 1

/-- Binary logarithm of a positive `n`, rounded down. -/
def log2 (n : Nat) : Nat := log2Aux n n

/-- Binary logarithm of the fraction `a / b`, rounded down (`a` and `b`
positive): it is `log2 a - log2 b` or one less. -/
def floorLog2 (a b : Nat) : Int :=
  let d : Int := (log2 a : Int) - (log2 b : Int)
  if b * 2 ^ d.toNat ≤ a * 2 ^ (-d).toNat then d else d - 1

/-- The integer nearest to `n / d`, the even one of the two when `n / d` lies
half way between two integers. -/
def roundHalfEven (n d : Nat) : Nat :=
  let q := n / d
  let r := n % d
  if 2 * r < d then q
  else if d < 2 * r then q + 1
  else if q % 2 = 0 then q else q + 1

/-- The exponent of the unit in the last place of the binary64 numbers around
`a / b`: 52 below the binary logarithm of `a / b`, and -1074 in the subnormal
range. -/
def ulpExponent (a b : Nat) : Int := max (floorLog2 a b) (-1022) - 52

/-- The value `a / b` in units of the last place, rounded to the nearest
integer, ties to even. -/
def roundedSignificand (a b : Nat) : Nat :=
  roundHalfEven (a * 2 ^ (-(ulpExponent a b)).toNat) (b * 2 ^ (ulpExponent a b).toNat)

/-- The Number value for `± a / b` (`b` positive): the binary64 value nearest
to it, ties to even, an infinity when that rounding reaches `2 ^ 1024`.  This
is the rounding of IEEE 754 that JavaScript uses for numeric literals, for
`parseFloat` and for the results of `+` and `*`. -/
def roundToBinary64 (negative : Bool) (a b : Nat) : JSNumber :=
  if a = 0 then JSNumber.finite negative 0 (-1074)
  else
    let ulp : Int := ulpExponent a b
    let m := roundedSignificand a b
    let m' := if m = 2 ^ 53 then 2 ^ 52 else m
    let ulp' := if m = 2 ^ 53 then ulp + 1 else ulp
    if 971 < ulp' then JSNumber.infinity negative
    else JSNumber.finite negative m' ulp'

/-- The Number for an integer (exact up to `2 ^ 53`). -/
def JSNumber.ofInt (n : Int) : JSNumber :=
  roundToBinary64 (decide (n < 0)) n.natAbs 1

/-- The operator `+` on Numbers: the exact sum, rounded.  An exact sum of zero
is `+0`, except that `-0 + -0` is `-0`. -/
def JSNumber.add : JSNumber → JSNumber → JSNumber
  | JSNumber.nan, _ => JSNumber.nan
  | _, JSNumber.nan => JSNumber.nan
  | JSNumber.infinity a, JSNumber.infinity b =>
    if a == b then JSNumber.infinity a else JSNumber.nan
  | JSNumber.infinity a, JSNumber.finite _ _ _ => JSNumber.infinity a
  | JSNumber.finite _ _ _, JSNumber.infinity b => JSNumber.infinity b
  | JSNumber.finite s₁ m₁ e₁, JSNumber.finite s₂ m₂ e₂ =>
    let e := min e₁ e₂
    let v₁ : Int := (if s₁ then -1 else 1) * ((m₁ * 2 ^ (e₁ - e).toNat : Nat) : Int)
    let v₂ : Int := (if s₂ then -1 else 1) * ((m₂ * 2 ^ (e₂ - e).toNat : Nat) : Int)
    if v₁ + v₂ = 0 then JSNumber.finite (s₁ && s₂) 0 (-1074)
    else roundToBinary64 (decide (v₁ + v₂ < 0)) ((v₁ + v₂).natAbs * 2 ^ e.toNat) (2 ^ (-e).toNat)

/-- The operator `*` on Numbers: the exact product, rounded. -/
def JSNumber.mul : JSNumber → JSNumber → JSNumber
  | JSNumber.nan, _ => JSNumber.nan
  | _, JSNumber.nan => JSNumber.nan
  | JSNumber.infinity a, JSNumber.infinity b => JSNumber.infinity (xor a b)
  | JSNumber.infinity a, JSNumber.finite s m _ =>
    if m = 0 then JSNumber.nan else JSNumber.infinity (xor a s)
  | JSNumber.finite s m _, JSNumber.infinity b =>
    if m = 0 then JSNumber.nan else JSNumber.infinity (xor s b)
  | JSNumber.finite s₁ m₁ e₁, JSNumber.finite s₂ m₂ e₂ =>
    roundToBinary64 (xor s₁ s₂) (m₁ * m₂ * 2 ^ (e₁ + e₂).toNat) (2 ^ (-(e₁ + e₂)).toNat)

/-- `Number.isFinite`. -/
def isFinite : JSNumber → Bool
  | JSNumber.finite _ _ _ => true
  | _ => false

/-- The least magnitude that rounds to an infinity: the midpoint between the
largest binary64 value, `2 ^ 1024 - 2 ^ 971`, and `2 ^ 1024`. -/
def overflowBound : Nat := 2 ^ 1024 - 2 ^ 970

/-! ## `parsePrice` and the cart total -/

/-- The character class `[\d,.-]` of line 237. -/
def isPriceChar (c : Char) : Bool :=
  c.isDigit || c == ',' || c == '.' || c == '-'

/-- `.replace(",", ".")` with a string pattern (line 239): only the first
comma is replaced. -/
def replaceFirstComma : List Char → List Char
  | [] => []
  | c :: cs => if c == ',' then '.' :: cs else c :: replaceFirstComma cs

/-- Lines 236-239: the string `cleaned`, as its list of characters. -/
def cleaned (raw : String) : List Char :=
  replaceFirstComma
    ((raw.data.filter isPriceChar).filter (fun c => !(c == '.')))

/-- Value of a string of decimal digits. -/
def digitsValue (ds : List Char) : Nat :=
  ds.foldl (fun n c => 10 * n + (c.toNat - 48)) 0

/-- The decimal literal read by `parseFloat`: sign, the digits of the integer
and fraction parts read as one natural number, and the number of fraction
digits.  It stands for `± mantissa / 10 ^ scale`. -/
structure DecimalLiteral where
  negative : Bool
  mantissa : Nat
  scale : Nat
deriving DecidableEq, Repr

/-- The optional sign in front of a `StrDecimalLiteral`, and what follows it. -/
def splitSign (s : List Char) : Bool × List Char :=
  match s with
  | [] => (false, [])
  | c :: rest =>
    if c == '-' then (true, rest)
    else if c == '+' then (false, rest)
    else (false, c :: rest)

/-- The fraction digits of a `StrDecimalLiteral`, given what follows its
integer digits: the digits after a `.`, if the next character is one. -/
def fractionDigits (afterInt : List Char) : List Char :=
  match afterInt with
  | [] => []
  | c :: rest => if c == '.' then rest.takeWhile Char.isDigit else []

/-- The longest prefix of `s` that is a `StrDecimalLiteral`: an optional sign,
then digits with an optional `.` and more digits, at least one digit in all.
Leading white space, an exponent part and the word `Infinity` are left out:
`cleaned` only contains digits, commas, periods and minus signs. -/
def scanDecimal (s : List Char) : Option DecimalLiteral :=
  let signed := splitSign s
  let intPart := signed.2.takeWhile Char.isDigit
  let fracPart := fractionDigits (signed.2.dropWhile Char.isDigit)
  if intPart.isEmpty && fracPart.isEmpty then none
  else some ⟨signed.1, digitsValue (intPart ++ fracPart), fracPart.length⟩

/-- `Number.parseFloat` on the characters of `cleaned`: `NaN` when no decimal
literal starts the string, otherwise the Number value for the literal, that is
the binary64 value nearest to it (ties to even), as the JavaScript engines
compute it. -/
def parseFloat (s : List Char) : JSNumber :=
  match scanDecimal s with
  | none => JSNumber.nan
  | some d => roundToBinary64 d.negative d.mantissa (10 ^ d.scale)

/-- `parsePrice(raw)` (lines 234-242).  `!raw` holds for `undefined` and for
the empty string. -/
def parsePrice (raw : Option String) : JSNumber :=
  if !truthy raw then JSNumber.zero
  else
    let parsed := parseFloat (cleaned (raw.getD ""))
    if isFinite parsed then parsed else JSNumber.zero

/-- `item.qty || 1` (line 219): the number 0 is falsy. -/
def qtyOrOne (qty : Int) : JSNumber :=
  if qty = 0 then JSNumber.ofInt 1 else JSNumber.ofInt qty

/-- The number `renderCart` (lines 205-232) passes to `formatCurrency`:
0 for the empty cart (line 212), otherwise the `total` accumulated by the
loop of lines 216-229. -/
def renderCartTotal (cart : Cart) : JSNumber :=
  if cart.length == 0 then JSNumber.zero
  else
    cart.foldl
      (fun total item => total.add ((parsePrice item.price).mul (qtyOrOne item.qty)))
      JSNumber.zero

/-- The amount written by an optional minus sign, an integer part whose
characters are digits and thousands separators, and fraction digits. -/
def decimalAmount (negative : Bool) (intPart fracPart : List Char) : ℚ :=
  (if negative then -1 else 1)
    * ((digitsValue (intPart.filter Char.isDigit) : ℚ)
        + (digitsValue fracPart : ℚ) / 10 ^ fracPart.length)

/-- The characters of a price: junk, sign, integer part, an optional comma
with fraction digits, junk. -/
def priceChars (before : List Char) (negative : Bool) (intPart : List Char)
    (comma : Bool) (fracPart after : List Char) : List Char :=
  before ++ (if negative then ['-'] else []) ++ intPart
    ++ (if comma then ',' :: fracPart else []) ++ after

/-! ## Example data of the specification -/

/-- The item of the scenario of section 8. -/
def planA : Item :=
  { id := some "X1", title := some "Plan A", price := some "10,00 €",
    type := some "service", qty := none, extra := [] }

/-- The cart entry the scenario of section 8 expects, with a given `qty`. -/
def planAEntry (qty : Int) : CartEntry :=
  { id := some "X1", title := some "Plan A", price := some "10,00 €",
    type := some "service", extra := [], qty := qty }

/-- The cart `[{price:"10,00 €", qty:2}, {price:"5,50 €", qty:1}]` of section 8. -/
def totalExample : Cart :=
  [{ id := some "X1", title := none, price := some "10,00 €", type := none, extra := [], qty := 2 },
   { id := some "X2", title := none, price := some "5,50 €", type := none, extra := [], qty := 1 }]

/-- A cart of two entries priced `0,10` and `0,20`, one of each. -/
def dimesExample : Cart :=
  [{ id := some "D1", title := none, price := some "0,10", type := none, extra := [], qty := 1 },
   { id := some "D2", title := none, price := some "0,20", type := none, extra := [], qty := 1 }]

/-! ## Lemmas on the array primitives -/

theorem findIndex_none_of_forall_ne (x : Option String) :
    ∀ l : List CartEntry, (∀ e ∈ l, e.id ≠ x) →
      findIndex (fun entry => entry.id == x) l = none := by
  intro l
  induction l with
  | nil => intro _; rfl
  | cons e es ih =>
    intro h
    have he : e.id ≠ x := h e (List.mem_cons_self _ _)
    have hes : ∀ e' ∈ es, e'.id ≠ x := fun e' m => h e' (List.mem_cons_of_mem _ m)
    simp [findIndex, he, ih hes]

theorem findIndex_some_of_exists (x : Option String) :
    ∀ l : List CartEntry, (∃ e ∈ l, e.id = x) →
      ∃ i, findIndex (fun entry => entry.id == x) l = some i := by
  intro l
  induction l with
  | nil => rintro ⟨e, m, _⟩; cases m
  | cons e es ih =>
    rintro ⟨e', m, he'⟩
    by_cases he : e.id = x
    · exact ⟨0, by simp [findIndex, he]⟩
    · rcases List.mem_cons.mp m with rfl | m'
      · exact absurd he' he
      · obtain ⟨i, hi⟩ := ih ⟨e', m', he'⟩
        exact ⟨i + 1, by simp [findIndex, he, hi]⟩

theorem findIndex_cons_ne (x : Option String) (e : CartEntry) (es : List CartEntry) (i : Nat)
    (he : e.id ≠ x) (h : findIndex (fun entry => entry.id == x) (e :: es) = some i) :
    ∃ j, findIndex (fun entry => entry.id == x) es = some j ∧ i = j + 1 := by
  cases hj : findIndex (fun entry => entry.id == x) es with
  | none => simp [findIndex, he, hj] at h
  | some j =>
    refine ⟨j, rfl, ?_⟩
    simpa [findIndex, he, hj] using h.symm

theorem map_ite_of_forall_ne (x : Option String) (g : CartEntry → CartEntry) :
    ∀ l : List CartEntry, (∀ e ∈ l, e.id ≠ x) →
      l.map (fun e => if e.id = x then g e else e) = l := by
  intro l
  induction l with
  | nil => intro _; rfl
  | cons e es ih =>
    intro h
    have he : e.id ≠ x := h e (List.mem_cons_self _ _)
    have hes : ∀ e' ∈ es, e'.id ≠ x := fun e' m => h e' (List.mem_cons_of_mem _ m)
    simp [he, ih hes]

theorem filter_of_forall_ne (x : Option String) :
    ∀ l : List CartEntry, (∀ e ∈ l, e.id ≠ x) →
      l.filter (fun e => !(e.id == x)) = l := by
  intro l h
  apply List.filter_eq_self.mpr
  intro e m
  simp [h e m]

theorem forall_ne_of_nodup_cons {x : Option String} {e : CartEntry} {es : List CartEntry}
    (hnd : ((e :: es).map (fun e => e.id)).Nodup) (he : e.id = x) :
    ∀ e' ∈ es, e'.id ≠ x := by
  intro e' m h'
  rw [List.map_cons, List.nodup_cons] at hnd
  exact hnd.1 (List.mem_map.mpr ⟨e', m, by rw [h', he]⟩)

theorem updateQtyAt_findIndex (x : Option String) (f : Int → Int) :
    ∀ (l : List CartEntry) (i : Nat), (l.map (fun e => e.id)).Nodup →
      findIndex (fun entry => entry.id == x) l = some i →
      updateQtyAt f l i = l.map (fun e => if e.id = x then { e with qty := f e.qty } else e) := by
  intro l
  induction l with
  | nil => intro i _ h; simp [findIndex] at h
  | cons e es ih =>
    intro i hnd h
    by_cases he : e.id = x
    · have hi : i = 0 := by simpa [findIndex, he] using h.symm
      subst hi
      have hes := forall_ne_of_nodup_cons hnd he
      simp [updateQtyAt, he, map_ite_of_forall_ne x _ es hes]
    · obtain ⟨j, hj, rfl⟩ := findIndex_cons_ne x e es i he h
      have hnd' : (es.map (fun e => e.id)).Nodup := by
        rw [List.map_cons, List.nodup_cons] at hnd; exact hnd.2
      simp [updateQtyAt, he, ih j hnd' hj]

theorem splice1_findIndex (x : Option String) :
    ∀ (l : List CartEntry) (i : Nat), (l.map (fun e => e.id)).Nodup →
      findIndex (fun entry => entry.id == x) l = some i →
      splice1 l i = l.filter (fun e => !(e.id == x)) := by
  intro l
  induction l with
  | nil => intro i _ h; simp [findIndex] at h
  | cons e es ih =>
    intro i hnd h
    by_cases he : e.id = x
    · have hi : i = 0 := by simpa [findIndex, he] using h.symm
      subst hi
      have hes := forall_ne_of_nodup_cons hnd he
      simp [splice1, he, filter_of_forall_ne x es hes]
    · obtain ⟨j, hj, rfl⟩ := findIndex_cons_ne x e es i he h
      have hnd' : (es.map (fun e => e.id)).Nodup := by
        rw [List.map_cons, List.nodup_cons] at hnd; exact hnd.2
      simp [splice1, he, ih j hnd' hj]

theorem qtyAt_findIndex (x : Option String) :
    ∀ (l : List CartEntry) (i : Nat), (l.map (fun e => e.id)).Nodup →
      findIndex (fun entry => entry.id == x) l = some i →
      ∀ e ∈ l, e.id = x → qtyAt l i = some e.qty := by
  intro l
  induction l with
  | nil => intro i _ h; simp [findIndex] at h
  | cons e es ih =>
    intro i hnd h e' m he'
    by_cases he : e.id = x
    · have hi : i = 0 := by simpa [findIndex, he] using h.symm
      subst hi
      have hes := forall_ne_of_nodup_cons hnd he
      rcases List.mem_cons.mp m with rfl | m'
      · rfl
      · exact absurd he' (hes e' m')
    · obtain ⟨j, hj, rfl⟩ := findIndex_cons_ne x e es i he h
      have hnd' : (es.map (fun e => e.id)).Nodup := by
        rw [List.map_cons, List.nodup_cons] at hnd; exact hnd.2
      rcases List.mem_cons.mp m with rfl | m'
      · exact absurd he' he
      · simpa [qtyAt] using ih j hnd' hj e' m' he'

/-! ## The branches of `applyActions`, case by case -/

theorem applyAction_add (cart : Cart) (action : Action) (it : Item)
    (hty : actionType action = "ADD") :
    applyAction (some it) cart action = addBranch cart it := by
  simp [applyAction, hty]

theorem applyAction_add_none (cart : Cart) (action : Action)
    (hty : actionType action = "ADD") :
    applyAction none cart action = cart := by
  simp [applyAction, hty]

theorem applyAction_remove (cart : Cart) (action : Action) (item : Option Item)
    (hty : actionType action = "REMOVE") :
    applyAction item cart action = removeBranch cart action item := by
  cases item <;> simp [applyAction, hty]

theorem applyAction_clear (cart : Cart) (action : Action) (item : Option Item)
    (hty : actionType action = "CLEAR") :
    applyAction item cart action = [] := by
  simp [applyAction, hty]

theorem applyAction_other (cart : Cart) (action : Action) (item : Option Item)
    (hadd : actionType action ≠ "ADD") (hrem : actionType action ≠ "REMOVE")
    (hclr : actionType action ≠ "CLEAR") :
    applyAction item cart action = cart := by
  cases item <;> simp [applyAction, hadd, hrem, hclr]

theorem addBranch_unseen (cart : Cart) (it : Item) (h : ∀ e ∈ cart, e.id ≠ it.id) :
    addBranch cart it = cart ++ [newEntry it] := by
  simp [addBranch, findIndex_none_of_forall_ne it.id cart h]

theorem addBranch_existing (cart : Cart) (it : Item)
    (hnd : (cart.map (fun e => e.id)).Nodup) (h : ∃ e ∈ cart, e.id = it.id) :
    addBranch cart it
      = cart.map (fun e => if e.id = it.id then { e with qty := e.qty + 1 } else e) := by
  obtain ⟨i, hi⟩ := findIndex_some_of_exists it.id cart h
  simp only [addBranch, hi]
  exact updateQtyAt_findIndex it.id (fun q => q + 1) cart i hnd hi

theorem removeBranch_falsy (cart : Cart) (action : Action) (item : Option Item)
    (h : truthy (removeTargetId action item) = false) :
    removeBranch cart action item = cart := by
  simp [removeBranch, h]

theorem removeBranch_absent (cart : Cart) (action : Action) (item : Option Item)
    (h : ∀ e ∈ cart, e.id ≠ removeTargetId action item) :
    removeBranch cart action item = cart := by
  simp [removeBranch, findIndex_none_of_forall_ne _ cart h]

theorem removeBranch_decrement (cart : Cart) (action : Action) (item : Option Item)
    (hnd : (cart.map (fun e => e.id)).Nodup)
    (ht : truthy (removeTargetId action item) = true)
    (e : CartEntry) (m : e ∈ cart) (he : e.id = removeTargetId action item) (hq : 1 < e.qty) :
    removeBranch cart action item
      = cart.map (fun e' => if e'.id = removeTargetId action item
          then { e' with qty := e'.qty - 1 } else e') := by
  obtain ⟨i, hi⟩ := findIndex_some_of_exists _ cart ⟨e, m, he⟩
  have hqa := qtyAt_findIndex _ cart i hnd hi e m he
  simp only [removeBranch, ht, hi, hqa]
  simp [hq, updateQtyAt_findIndex _ (fun q => q - 1) cart i hnd hi]

theorem removeBranch_delete (cart : Cart) (action : Action) (item : Option Item)
    (hnd : (cart.map (fun e => e.id)).Nodup)
    (ht : truthy (removeTargetId action item) = true)
    (e : CartEntry) (m : e ∈ cart) (he : e.id = removeTargetId action item) (hq : ¬ 1 < e.qty) :
    removeBranch cart action item
      = cart.filter (fun e' => !(e'.id == removeTargetId action item)) := by
  obtain ⟨i, hi⟩ := findIndex_some_of_exists _ cart ⟨e, m, he⟩
  have hqa := qtyAt_findIndex _ cart i hnd hi e m he
  simp only [removeBranch, ht, hi, hqa]
  simp [hq, splice1_findIndex _ cart i hnd hi]

/-! ## The cart invariant -/

theorem map_id_bump (x : Option String) (f : Int → Int) (l : List CartEntry) :
    (l.map (fun e => if e.id = x then { e with qty := f e.qty } else e)).map (fun e => e.id)
      = l.map (fun e => e.id) := by
  rw [List.map_map]
  apply List.map_congr_left
  intro e _
  simp only [Function.comp]
  split <;> rfl

theorem CartInv_addBranch (cart : Cart) (it : Item) (h : CartInv cart) :
    CartInv (addBranch cart it) := by
  obtain ⟨hq, hnd⟩ := h
  by_cases hex : ∃ e ∈ cart, e.id = it.id
  · rw [addBranch_existing cart it hnd hex]
    constructor
    · intro e' m'
      obtain ⟨e, m, rfl⟩ := List.mem_map.mp m'
      have := hq e m
      split
      · show 1 ≤ e.qty + 1
        omega
      · exact this
    · rw [map_id_bump it.id (fun q => q + 1) cart]; exact hnd
  · have hne : ∀ e ∈ cart, e.id ≠ it.id := fun e m he => hex ⟨e, m, he⟩
    rw [addBranch_unseen cart it hne]
    constructor
    · intro e m
      rcases List.mem_append.mp m with m | m
      · exact hq e m
      · have : e = newEntry it := by simpa using m
        subst this
        simp [newEntry]
    · rw [List.map_append, List.nodup_append]
      refine ⟨hnd, by simp, ?_⟩
      intro x hx hx'
      obtain ⟨e, m, rfl⟩ := List.mem_map.mp hx
      have : e.id = it.id := by simpa [newEntry] using hx'
      exact hne e m this

theorem CartInv_removeBranch (cart : Cart) (action : Action) (item : Option Item)
    (h : CartInv cart) : CartInv (removeBranch cart action item) := by
  obtain ⟨hq, hnd⟩ := h
  by_cases ht : truthy (removeTargetId action item) = true
  · by_cases hex : ∃ e ∈ cart, e.id = removeTargetId action item
    · obtain ⟨e, m, he⟩ := hex
      by_cases hgt : 1 < e.qty
      · rw [removeBranch_decrement cart action item hnd ht e m he hgt]
        constructor
        · intro e' m'
          obtain ⟨e₀, m₀, rfl⟩ := List.mem_map.mp m'
          have h₀ := hq e₀ m₀
          split
          · next hid =>
            have : e₀ = e := List.inj_on_of_nodup_map hnd m₀ m (hid.trans he.symm)
            subst this
            show 1 ≤ e₀.qty - 1
            omega
          · exact h₀
        · rw [map_id_bump (removeTargetId action item) (fun q => q - 1) cart]; exact hnd
      · rw [removeBranch_delete cart action item hnd ht e m he hgt]
        constructor
        · intro e' m'
          exact hq e' (List.mem_of_mem_filter m')
        · exact hnd.sublist (List.Sublist.map _ (List.filter_sublist _))
    · have hne : ∀ e ∈ cart, e.id ≠ removeTargetId action item := fun e m he => hex ⟨e, m, he⟩
      rw [removeBranch_absent cart action item hne]
      exact ⟨hq, hnd⟩
  · rw [removeBranch_falsy cart action item (by simpa using ht)]
    exact ⟨hq, hnd⟩

theorem CartInv_nil : CartInv [] := by
  constructor
  · intro e m; cases m
  · exact List.nodup_nil

theorem CartInv_applyAction (item : Option Item) (cart : Cart) (action : Action)
    (h : CartInv cart) : CartInv (applyAction item cart action) := by
  by_cases hadd : actionType action = "ADD"
  · cases item with
    | none => rw [applyAction_add_none cart action hadd]; exact h
    | some it => rw [applyAction_add cart action it hadd]; exact CartInv_addBranch cart it h
  · by_cases hrem : actionType action = "REMOVE"
    · rw [applyAction_remove cart action item hrem]
      exact CartInv_removeBranch cart action item h
    · by_cases hclr : actionType action = "CLEAR"
      · rw [applyAction_clear cart action item hclr]; exact CartInv_nil
      · rw [applyAction_other cart action item hadd hrem hclr]; exact h

theorem CartInv_applyActions (actions : List Action) (item : Option Item) :
    ∀ cart : Cart, CartInv cart → CartInv (applyActions actions item cart) := by
  induction actions with
  | nil => intro cart h; exact h
  | cons a rest ih =>
    intro cart h
    exact ih _ (CartInv_applyAction item cart a h)

theorem CartInv_runBatches (batches : List (List Action × Option Item)) :
    ∀ cart : Cart, CartInv cart → CartInv (runBatches batches cart) := by
  induction batches with
  | nil => intro cart h; exact h
  | cons b rest ih =>
    intro cart h
    exact ih _ (CartInv_applyActions b.1 b.2 cart h)

theorem applyActions_single (action : Action) (item : Option Item) (cart : Cart) :
    applyActions [action] item cart = applyAction item cart action := rfl

theorem applyActions_append (xs ys : List Action) (item : Option Item) :
    ∀ cart : Cart,
      applyActions (xs ++ ys) item cart = applyActions ys item (applyActions xs item cart) := by
  induction xs with
  | nil => intro cart; rfl
  | cons a rest ih => intro cart; exact ih _

theorem applyActions_eq_foldl (xs : List Action) (item : Option Item) :
    ∀ cart : Cart, applyActions xs item cart = xs.foldl (applyAction item) cart := by
  induction xs with
  | nil => intro cart; rfl
  | cons a rest ih => intro cart; exact ih _

theorem findIndex_appended (it : Item) :
    ∀ l : List CartEntry, (∀ e ∈ l, e.id ≠ it.id) →
      findIndex (fun entry => entry.id == it.id) (l ++ [newEntry it]) = some l.length := by
  intro l
  induction l with
  | nil => intro _; simp [findIndex, newEntry]
  | cons e es ih =>
    intro hl
    have he : e.id ≠ it.id := hl e (List.mem_cons_self _ _)
    have hes : ∀ e' ∈ es, e'.id ≠ it.id := fun e' m => hl e' (List.mem_cons_of_mem _ m)
    simp [findIndex, he, ih hes]

theorem updateQtyAt_appended (it : Item) :
    ∀ l : List CartEntry,
      updateQtyAt (fun q => q + 1) (l ++ [newEntry it]) l.length
        = l ++ [{ newEntry it with qty := 2 }] := by
  intro l
  induction l with
  | nil => simp [updateQtyAt, newEntry]
  | cons e es ih => simp [updateQtyAt, ih]

/-! ## Claims on the reconciler -/

/-- C1. Cart invariant: a cart in which every qty is at least 1 and ids are
pairwise distinct stays so under every single action with every optional item,
and under every sequence of batches; in particular every cart reached from the
empty cart has no entry with qty at most 0 and no two entries with one id. -/
theorem cart_invariant_preserved (cart : Cart) (h : CartInv cart) (item : Option Item)
    (action : Action) (batches : List (List Action × Option Item)) :
    CartInv (applyAction item cart action)
      ∧ CartInv (runBatches batches cart)
      ∧ ((∀ e ∈ runBatches batches [], ¬ e.qty ≤ 0)
          ∧ ((runBatches batches []).map (fun e => e.id)).Nodup) := by
  refine ⟨CartInv_applyAction item cart action h, CartInv_runBatches batches cart h, ?_, ?_⟩
  · intro e m
    have := (CartInv_runBatches batches [] CartInv_nil).1 e m
    omega
  · exact (CartInv_runBatches batches [] CartInv_nil).2

theorem cart_invariant_preserved_witness :
    CartInv [planAEntry 1]
      ∧ CartInv (applyAction none [planAEntry 1] ⟨some "REMOVE", some "X1"⟩)
      ∧ CartInv (runBatches [([⟨some "ADD", none⟩, ⟨some "add", none⟩], some planA)] [planAEntry 1]) :=
  ⟨by decide,
   (cart_invariant_preserved [planAEntry 1] (by decide) none ⟨some "REMOVE", some "X1"⟩ []).1,
   (cart_invariant_preserved [planAEntry 1] (by decide) none ⟨some "REMOVE", some "X1"⟩
      [([⟨some "ADD", none⟩, ⟨some "add", none⟩], some planA)]).2.1⟩

/-- C2. ADD on an unseen id: when no entry of the cart has the id of the item,
the result is the old cart followed by one entry that carries the item's
fields and qty 1 (whatever qty the item carried), so the length grows by one
and the earlier entries keep their values and order. -/
theorem add_unseen_appends (cart : Cart) (item : Item) (action : Action)
    (hty : actionType action = "ADD") (hnew : ∀ e ∈ cart, e.id ≠ item.id) :
    applyActions [action] (some item) cart
        = cart ++ [{ id := item.id, title := item.title, price := item.price,
                     type := item.type, extra := item.extra, qty := 1 }]
      ∧ (applyActions [action] (some item) cart).length = cart.length + 1 := by
  have h : applyActions [action] (some item) cart = cart ++ [newEntry item] := by
    rw [applyActions_single, applyAction_add cart action item hty, addBranch_unseen cart item hnew]
  refine ⟨h, ?_⟩
  rw [h]; simp

theorem add_unseen_appends_witness :
    applyActions [⟨some "ADD", none⟩] (some { planA with qty := some 7 }) []
      = [{ id := some "X1", title := some "Plan A", price := some "10,00 €",
           type := some "service", extra := [], qty := 1 }] :=
  (add_unseen_appends [] { planA with qty := some 7 } ⟨some "ADD", none⟩ (by decide)
    (by intro e m; cases m)).1

/-- C3. ADD on an existing id: in a cart with pairwise distinct ids that has an
entry with the id of the item, the result has the same length and order, that
entry has its qty increased by 1 and keeps its own title, price and type, and
every other entry is unchanged.  ADD applied twice with one item to a cart
without its id yields one new entry for it, with qty 2. -/
theorem add_existing_increments (cart : Cart) (item : Item) (action : Action)
    (hty : actionType action = "ADD")
    (hnd : (cart.map (fun e => e.id)).Nodup) (hex : ∃ e ∈ cart, e.id = item.id) :
    applyActions [action] (some item) cart
        = cart.map (fun e => if e.id = item.id then { e with qty := e.qty + 1 } else e)
      ∧ (applyActions [action] (some item) cart).length = cart.length
      ∧ (∀ other : Cart, (∀ e ∈ other, e.id ≠ item.id) →
          applyActions [action, action] (some item) other
            = other ++ [{ id := item.id, title := item.title, price := item.price,
                          type := item.type, extra := item.extra, qty := 2 }]) := by
  have h : applyActions [action] (some item) cart
      = cart.map (fun e => if e.id = item.id then { e with qty := e.qty + 1 } else e) := by
    rw [applyActions_single, applyAction_add cart action item hty,
      addBranch_existing cart item hnd hex]
  refine ⟨h, by rw [h]; simp, ?_⟩
  intro other hnew
  have h1 : applyAction (some item) other action = other ++ [newEntry item] := by
    rw [applyAction_add other action item hty, addBranch_unseen other item hnew]
  show applyAction (some item) (applyAction (some item) other action) action = _
  rw [h1, applyAction_add _ action item hty]
  simp only [addBranch, findIndex_appended item other hnew, updateQtyAt_appended item other]
  rfl

theorem add_existing_increments_witness :
    applyActions [⟨some "ADD", none⟩]
        (some { id := some "X1", title := some "Plan B", price := some "99,00 €",
                type := some "product", qty := none, extra := [] })
        [planAEntry 1]
      = [planAEntry 2] :=
  (add_existing_increments [planAEntry 1]
      { id := some "X1", title := some "Plan B", price := some "99,00 €",
        type := some "product", qty := none, extra := [] }
      ⟨some "ADD", none⟩ (by decide) (by decide) ⟨planAEntry 1, by simp, by decide⟩).1.trans
    (by decide)

/-- C5. A batch is the sequential composition of its actions in array order:
applying `xs ++ ys` is applying `xs` and then `ys` with the same item, a batch
is the left fold of the single action step, and the empty batch changes
nothing. -/
theorem batch_is_sequential (cart : Cart) (item : Option Item) (xs ys : List Action) :
    applyActions (xs ++ ys) item cart = applyActions ys item (applyActions xs item cart)
      ∧ applyActions xs item cart = xs.foldl (applyAction item) cart
      ∧ applyActions [] item cart = cart :=
  ⟨applyActions_append xs ys item cart, applyActions_eq_foldl xs item cart, rfl⟩

/-- C6. CLEAR yields the empty cart from every cart, with or without an item,
and the clear-cart click handler leaves the same cart as that CLEAR action. -/
theorem clear_empties (cart : Cart) (item : Option Item) (itemId : Option String) :
    applyActions [⟨some "CLEAR", itemId⟩] item cart = []
      ∧ clearCartClick cart = applyActions [⟨some "CLEAR", itemId⟩] item cart := by
  have h : applyActions [⟨some "CLEAR", itemId⟩] item cart = [] := by
    rw [applyActions_single]
    exact applyAction_clear cart _ item
      (show actionType ⟨some "CLEAR", none⟩ = "CLEAR" by decide)
  exact ⟨h, by rw [h]; rfl⟩

theorem removeTargetId_of_itemId (action : Action) (item : Option Item) (t : String)
    (ht : t ≠ "") (h : action.itemId = some t) : removeTargetId action item = some t := by
  simp [removeTargetId, jsOr, truthy, h, ht]

theorem removeTargetId_of_falsy_itemId (action : Action) (item : Option Item)
    (h : action.itemId = none ∨ action.itemId = some "") :
    removeTargetId action item = (match item with
      | none => none
      | some it => it.id) := by
  rcases h with h | h <;> simp [removeTargetId, jsOr, truthy, h]

theorem actionType_of_type_none (action : Action) (h : action.type = none) :
    actionType action = "" := by
  simp [actionType, jsOr, truthy, h]
  decide

/-- C4, as the code has it. REMOVE in a cart with pairwise distinct ids: the
target id is `action.itemId` when that is a non-empty string (whatever the
item is), and `item.id` when `itemId` is absent or empty.  With a non-empty
target `t`: an entry with id `t` and qty above 1 gets its qty decreased by 1
and nothing else changes; an entry with id `t` and qty 1 is deleted and the
others keep their values and order; with no entry of id `t` the cart is
unchanged.  When neither `itemId` nor `item.id` gives a non-empty string the
cart is unchanged. -/
theorem remove_resolves_and_applies (cart : Cart) (action : Action) (item : Option Item)
    (t : String) (hty : actionType action = "REMOVE")
    (hnd : (cart.map (fun e => e.id)).Nodup) :
    ((t ≠ "" ∧ (action.itemId = some t
          ∨ ((action.itemId = none ∨ action.itemId = some "")
              ∧ ∃ it, item = some it ∧ it.id = some t))) →
        (∀ e ∈ cart, e.id = some t → 1 < e.qty →
            applyActions [action] item cart
              = cart.map (fun e' => if e'.id = some t then { e' with qty := e'.qty - 1 } else e'))
        ∧ (∀ e ∈ cart, e.id = some t → e.qty = 1 →
            applyActions [action] item cart = cart.filter (fun e' => !(e'.id == some t)))
        ∧ ((∀ e ∈ cart, e.id ≠ some t) → applyActions [action] item cart = cart))
      ∧ ((action.itemId = none ∨ action.itemId = some "") →
          (item = none ∨ ∃ it, item = some it ∧ (it.id = none ∨ it.id = some "")) →
          applyActions [action] item cart = cart) := by
  rw [applyActions_single, applyAction_remove cart action item hty]
  constructor
  · rintro ⟨ht, hres⟩
    have htgt : removeTargetId action item = some t := by
      rcases hres with h | ⟨h, it, rfl, hit⟩
      · exact removeTargetId_of_itemId action item t ht h
      · rw [removeTargetId_of_falsy_itemId action (some it) h]; exact hit
    have htr : truthy (removeTargetId action item) = true := by
      rw [htgt]; simp [truthy, ht]
    refine ⟨?_, ?_, ?_⟩
    · intro e m he hq
      have := removeBranch_decrement cart action item hnd htr e m (he.trans htgt.symm) hq
      rw [htgt] at this
      exact this
    · intro e m he hq
      have := removeBranch_delete cart action item hnd htr e m (he.trans htgt.symm) (by omega)
      rw [htgt] at this
      exact this
    · intro hne
      exact removeBranch_absent cart action item (by rw [htgt]; exact hne)
  · intro hid hitem
    apply removeBranch_falsy
    rw [removeTargetId_of_falsy_itemId action item hid]
    rcases hitem with rfl | ⟨it, rfl, h | h⟩
    · rfl
    · simp [truthy, h]
    · simp [truthy, h]

theorem remove_resolves_and_applies_witness :
    applyActions [⟨some "REMOVE", some "X1"⟩] none [planAEntry 2] = [planAEntry 1]
      ∧ applyActions [⟨some "REMOVE", none⟩] (some planA) [planAEntry 1] = [] :=
  ⟨(((remove_resolves_and_applies [planAEntry 2] ⟨some "REMOVE", some "X1"⟩ none "X1"
        (by decide) (by decide)).1 ⟨by decide, Or.inl rfl⟩).1
        (planAEntry 2) (by simp) rfl (by decide)).trans (by decide),
   (((remove_resolves_and_applies [planAEntry 1] ⟨some "REMOVE", none⟩ (some planA) "X1"
        (by decide) (by decide)).1 ⟨by decide, Or.inr ⟨Or.inl rfl, planA, rfl, rfl⟩⟩).2.1
        (planAEntry 1) (by simp) rfl rfl).trans (by decide)⟩

/-- C4 as stated fails when `itemId` is present and empty: the target is then
not `itemId` but `item.id`.  Here `itemId` is the empty string, no entry of the
cart has the empty id, and yet the entry named by `item.id` is decremented. -/
theorem remove_empty_itemId_uses_item_id :
    (⟨some "REMOVE", some ""⟩ : Action).itemId = some ""
      ∧ (∀ e ∈ [planAEntry 2], e.id ≠ (⟨some "REMOVE", some ""⟩ : Action).itemId)
      ∧ applyActions [⟨some "REMOVE", some ""⟩] (some planA) [planAEntry 2] = [planAEntry 1]
      ∧ applyActions [⟨some "REMOVE", some ""⟩] (some planA) [planAEntry 2] ≠ [planAEntry 2] := by
  decide

/-- C9. Missing action data is a no-op: on every cart, an ADD action without
an item, a REMOVE action without itemId and without an item or with an item
that has no id, and an action without a type return the cart unchanged. -/
theorem missing_data_is_noop (cart : Cart) :
    (∀ action : Action, actionType action = "ADD" → applyActions [action] none cart = cart)
      ∧ (∀ action : Action, actionType action = "REMOVE" → action.itemId = none →
          applyActions [action] none cart = cart
            ∧ ∀ it : Item, it.id = none → applyActions [action] (some it) cart = cart)
      ∧ (∀ (action : Action) (item : Option Item), action.type = none →
          applyActions [action] item cart = cart) := by
  refine ⟨?_, ?_, ?_⟩
  · intro action hty
    rw [applyActions_single, applyAction_add_none cart action hty]
  · intro action hty hid
    constructor
    · rw [applyActions_single, applyAction_remove cart action none hty]
      apply removeBranch_falsy
      rw [removeTargetId_of_falsy_itemId action none (Or.inl hid)]
      rfl
    · intro it hit
      rw [applyActions_single, applyAction_remove cart action (some it) hty]
      apply removeBranch_falsy
      rw [removeTargetId_of_falsy_itemId action (some it) (Or.inl hid)]
      simp [truthy, hit]
  · intro action item hty
    have h := actionType_of_type_none action hty
    rw [applyActions_single]
    apply applyAction_other <;> rw [h] <;> decide

theorem missing_data_is_noop_witness :
    applyActions [⟨some "ADD", none⟩] none [planAEntry 2] = [planAEntry 2]
      ∧ applyActions [⟨some "REMOVE", none⟩] none [planAEntry 2] = [planAEntry 2]
      ∧ applyActions [⟨some "REMOVE", none⟩] (some { planA with id := none }) [planAEntry 2]
          = [planAEntry 2]
      ∧ applyActions [⟨none, some "X1"⟩] (some planA) [planAEntry 2] = [planAEntry 2] :=
  ⟨(missing_data_is_noop [planAEntry 2]).1 ⟨some "ADD", none⟩ (by decide),
   ((missing_data_is_noop [planAEntry 2]).2.1 ⟨some "REMOVE", none⟩ (by decide) rfl).1,
   ((missing_data_is_noop [planAEntry 2]).2.1 ⟨some "REMOVE", none⟩ (by decide) rfl).2
      { planA with id := none } rfl,
   (missing_data_is_noop [planAEntry 2]).2.2 ⟨none, some "X1"⟩ (some planA) rfl⟩

/-- C10 at its failing input. ADD with an item that has no id is not a no-op:
on the empty cart it appends an entry without id. -/
theorem add_without_id_appends :
    applyActions [⟨some "ADD", none⟩] (some { planA with id := none }) []
        = [{ id := none, title := some "Plan A", price := some "10,00 €",
             type := some "service", extra := [], qty := 1 }]
      ∧ applyActions [⟨some "ADD", none⟩] (some { planA with id := none }) [] ≠ [] := by
  decide

/-! ## Lemmas on rounding to binary64 -/

theorem log2Aux_spec : ∀ (fuel n : Nat), 0 < n → n ≤ fuel →
    2 ^ log2Aux fuel n ≤ n ∧ n < 2 ^ (log2Aux fuel n + 1) := by
  intro fuel
  induction fuel with
  | zero => intro n h0 h; omega
  | succ k ih =>
    intro n h0 h
    by_cases h2 : n < 2
    · have : n = 1 := by omega
      subst this
      simp [log2Aux]
    · have hdiv : 0 < n / 2 := Nat.div_pos (by omega) (by norm_num)
      have hle : n / 2 ≤ k := by omega
      obtain ⟨h1, h3⟩ := ih (n / 2) hdiv hle
      simp only [log2Aux, h2, if_false]
      constructor
      · rw [pow_succ]; omega
      · rw [pow_succ]; omega

theorem log2_spec (n : Nat) (h : 0 < n) : 2 ^ log2 n ≤ n ∧ n < 2 ^ (log2 n + 1) :=
  log2Aux_spec n n h (Nat.le_refl n)

theorem zpow_toNat_div (d : Int) :
    ((2 ^ d.toNat : Nat) : ℚ) / ((2 ^ (-d).toNat : Nat) : ℚ) = (2 : ℚ) ^ d := by
  rcases le_total 0 d with h | h
  · obtain ⟨k, rfl⟩ := Int.eq_ofNat_of_zero_le h
    have : (-(k : Int)).toNat = 0 := by omega
    simp [this]
  · obtain ⟨k, hk⟩ := Int.eq_ofNat_of_zero_le (neg_nonneg.mpr h)
    have hd : d = -(k : Int) := by omega
    subst hd
    have : (-(k : Int)).toNat = 0 := by omega
    simp [this]

theorem scaled_ratio (a b : Nat) (d : Int) (hb : 0 < b) :
    ((a * 2 ^ (-d).toNat : Nat) : ℚ) / ((b * 2 ^ d.toNat : Nat) : ℚ)
      = ((a : ℚ) / b) / (2 : ℚ) ^ d := by
  rw [← zpow_toNat_div d]
  have hb' : (b : ℚ) ≠ 0 := by positivity
  have h1 : ((2 ^ d.toNat : Nat) : ℚ) ≠ 0 := by positivity
  have h2 : ((2 ^ (-d).toNat : Nat) : ℚ) ≠ 0 := by positivity
  push_cast
  field_simp

theorem test_iff (a b : Nat) (d : Int) (hb : 0 < b) :
    b * 2 ^ d.toNat ≤ a * 2 ^ (-d).toNat ↔ (2 : ℚ) ^ d ≤ (a : ℚ) / b := by
  have hb' : (0 : ℚ) < b := by exact_mod_cast hb
  have h2 : (0 : ℚ) < ((2 ^ (-d).toNat : Nat) : ℚ) := by positivity
  rw [← zpow_toNat_div d, div_le_div_iff₀ h2 hb']
  constructor
  · intro h
    have : ((b * 2 ^ d.toNat : Nat) : ℚ) ≤ ((a * 2 ^ (-d).toNat : Nat) : ℚ) := by
      exact_mod_cast h
    push_cast at this ⊢
    linarith
  · intro h
    have : ((b * 2 ^ d.toNat : Nat) : ℚ) ≤ ((a * 2 ^ (-d).toNat : Nat) : ℚ) := by
      push_cast at h ⊢
      linarith
    exact_mod_cast this

theorem floorLog2_spec (a b : Nat) (ha : 0 < a) (hb : 0 < b) :
    (2 : ℚ) ^ floorLog2 a b ≤ (a : ℚ) / b ∧ (a : ℚ) / b < (2 : ℚ) ^ (floorLog2 a b + 1) := by
  have hb' : (0 : ℚ) < b := by exact_mod_cast hb
  obtain ⟨a1, a2⟩ := log2_spec a ha
  obtain ⟨b1, b2⟩ := log2_spec b hb
  have hA1 : (2 : ℚ) ^ (log2 a : ℤ) ≤ a := by
    rw [zpow_natCast]; exact_mod_cast a1
  have hA2 : (a : ℚ) < (2 : ℚ) ^ ((log2 a : ℤ) + 1) := by
    have : (a : ℚ) < (2 : ℚ) ^ (log2 a + 1) := by exact_mod_cast a2
    rw [← zpow_natCast] at this
    push_cast at this
    exact this
  have hB1 : (2 : ℚ) ^ (log2 b : ℤ) ≤ b := by
    rw [zpow_natCast]; exact_mod_cast b1
  have hB2 : (b : ℚ) < (2 : ℚ) ^ ((log2 b : ℤ) + 1) := by
    have : (b : ℚ) < (2 : ℚ) ^ (log2 b + 1) := by exact_mod_cast b2
    rw [← zpow_natCast] at this
    push_cast at this
    exact this
  have two_ne : (2 : ℚ) ≠ 0 := by norm_num
  have hupper : (a : ℚ) / b < (2 : ℚ) ^ ((log2 a : ℤ) - (log2 b : ℤ) + 1) := by
    rw [div_lt_iff₀ hb']
    have hpos : (0 : ℚ) < (2 : ℚ) ^ ((log2 a : ℤ) - (log2 b : ℤ) + 1) := by positivity
    have e1 : (2 : ℚ) ^ ((log2 a : ℤ) - (log2 b : ℤ) + 1) * (2 : ℚ) ^ (log2 b : ℤ)
        = (2 : ℚ) ^ ((log2 a : ℤ) + 1) := by
      rw [← zpow_add₀ two_ne]; congr 1; ring
    calc (a : ℚ) < (2 : ℚ) ^ ((log2 a : ℤ) + 1) := hA2
      _ = (2 : ℚ) ^ ((log2 a : ℤ) - (log2 b : ℤ) + 1) * (2 : ℚ) ^ (log2 b : ℤ) := e1.symm
      _ ≤ (2 : ℚ) ^ ((log2 a : ℤ) - (log2 b : ℤ) + 1) * b :=
        mul_le_mul_of_nonneg_left hB1 (le_of_lt hpos)
  have hlower : (2 : ℚ) ^ ((log2 a : ℤ) - (log2 b : ℤ) - 1) ≤ (a : ℚ) / b := by
    rw [le_div_iff₀ hb']
    have hpos : (0 : ℚ) < (2 : ℚ) ^ ((log2 a : ℤ) - (log2 b : ℤ) - 1) := by positivity
    have e1 : (2 : ℚ) ^ ((log2 a : ℤ) - (log2 b : ℤ) - 1) * (2 : ℚ) ^ ((log2 b : ℤ) + 1)
        = (2 : ℚ) ^ (log2 a : ℤ) := by
      rw [← zpow_add₀ two_ne]; congr 1; ring
    calc (2 : ℚ) ^ ((log2 a : ℤ) - (log2 b : ℤ) - 1) * b
        ≤ (2 : ℚ) ^ ((log2 a : ℤ) - (log2 b : ℤ) - 1) * (2 : ℚ) ^ ((log2 b : ℤ) + 1) :=
          mul_le_mul_of_nonneg_left (le_of_lt hB2) (le_of_lt hpos)
      _ = (2 : ℚ) ^ (log2 a : ℤ) := e1
      _ ≤ a := hA1
  unfold floorLog2
  simp only
  split
  · next h =>
    exact ⟨(test_iff a b _ hb).mp h, hupper⟩
  · next h =>
    have hlt : (a : ℚ) / b < (2 : ℚ) ^ ((log2 a : ℤ) - (log2 b : ℤ)) := by
      have := mt (test_iff a b ((log2 a : ℤ) - (log2 b : ℤ)) hb).mpr h
      exact not_le.mp this
    refine ⟨hlower, ?_⟩
    have : (log2 a : ℤ) - (log2 b : ℤ) - 1 + 1 = (log2 a : ℤ) - (log2 b : ℤ) := by ring
    rw [this]
    exact hlt

theorem roundHalfEven_spec (n d : Nat) (hd : 0 < d) :
    |(roundHalfEven n d : ℚ) - (n : ℚ) / d| ≤ 1 / 2 := by
  have hd' : (0 : ℚ) < d := by exact_mod_cast hd
  have hdiv : (n : ℚ) = (d : ℚ) * ((n / d : Nat) : ℚ) + ((n % d : Nat) : ℚ) := by
    exact_mod_cast (Nat.div_add_mod n d).symm
  have hr : ((n % d : Nat) : ℚ) < d := by exact_mod_cast Nat.mod_lt n hd
  have hr0 : (0 : ℚ) ≤ ((n % d : Nat) : ℚ) := by positivity
  have hq : (n : ℚ) / d = ((n / d : Nat) : ℚ) + ((n % d : Nat) : ℚ) / d := by
    rw [div_eq_iff (ne_of_gt hd'), add_mul, div_mul_cancel₀ _ (ne_of_gt hd')]; linarith
  have hfrac0 : (0 : ℚ) ≤ ((n % d : Nat) : ℚ) / d := by positivity
  rw [abs_le]
  unfold roundHalfEven
  simp only
  split
  · next h =>
    have h' : 2 * ((n % d : Nat) : ℚ) < d := by exact_mod_cast h
    have : ((n % d : Nat) : ℚ) / d < 1 / 2 := by
      rw [div_lt_iff₀ hd']; linarith
    rw [hq]; constructor <;> linarith
  · next h =>
    split
    · next h2 =>
      have h' : (d : ℚ) < 2 * ((n % d : Nat) : ℚ) := by exact_mod_cast h2
      have h1 : 1 / 2 < ((n % d : Nat) : ℚ) / d := by
        rw [lt_div_iff₀ hd']; linarith
      have h3 : ((n % d : Nat) : ℚ) / d < 1 := by
        rw [div_lt_iff₀ hd']; linarith
      rw [hq]; push_cast; constructor <;> linarith
    · next h2 =>
      have heq : 2 * (n % d) = d := by omega
      have h' : 2 * ((n % d : Nat) : ℚ) = d := by exact_mod_cast heq
      have h1 : ((n % d : Nat) : ℚ) / d = 1 / 2 := by
        rw [div_eq_iff (ne_of_gt hd')]; linarith
      split
      · rw [hq, h1]; constructor <;> linarith
      · rw [hq, h1]; push_cast; constructor <;> linarith

/-- Ties go to the even integer. -/
theorem roundHalfEven_tie_even (n d : Nat) (h : 2 * (n % d) = d) :
    roundHalfEven n d % 2 = 0 := by
  unfold roundHalfEven
  simp only
  have h1 : ¬ 2 * (n % d) < d := by omega
  have h2 : ¬ d < 2 * (n % d) := by omega
  rw [if_neg h1, if_neg h2]
  split
  · assumption
  · omega

theorem roundHalfEven_ge (n d K : Nat) (hd : 0 < d) (h : (K : ℚ) ≤ (n : ℚ) / d) :
    K ≤ roundHalfEven n d := by
  have := abs_le.mp (roundHalfEven_spec n d hd)
  have h1 : (K : ℚ) - 1 / 2 ≤ (roundHalfEven n d : ℚ) := by linarith [this.1]
  by_contra hlt
  have h2 : roundHalfEven n d + 1 ≤ K := by omega
  have h3 : ((roundHalfEven n d : ℚ)) + 1 ≤ (K : ℚ) := by exact_mod_cast h2
  linarith

theorem roundHalfEven_le (n d K : Nat) (hd : 0 < d) (h : (n : ℚ) / d ≤ (K : ℚ)) :
    roundHalfEven n d ≤ K := by
  have := abs_le.mp (roundHalfEven_spec n d hd)
  have h1 : (roundHalfEven n d : ℚ) ≤ (K : ℚ) + 1 / 2 := by linarith [this.2]
  by_contra hlt
  have h2 : K + 1 ≤ roundHalfEven n d := by omega
  have h3 : (K : ℚ) + 1 ≤ (roundHalfEven n d : ℚ) := by exact_mod_cast h2
  linarith

/-- The rounded significand is the integer nearest to `(a / b) / 2 ^ ulp`. -/
theorem roundedSignificand_spec (a b : Nat) (hb : 0 < b) :
    |(roundedSignificand a b : ℚ) - ((a : ℚ) / b) / (2 : ℚ) ^ ulpExponent a b| ≤ 1 / 2 := by
  have hd : 0 < b * 2 ^ (ulpExponent a b).toNat := Nat.mul_pos hb (by positivity)
  have := roundHalfEven_spec (a * 2 ^ (-(ulpExponent a b)).toNat)
    (b * 2 ^ (ulpExponent a b).toNat) hd
  rw [scaled_ratio a b _ hb] at this
  exact this

theorem roundToBinary64_unfold (negative : Bool) (a b : Nat) (ha : a ≠ 0) :
    roundToBinary64 negative a b
      = if 971 < (if roundedSignificand a b = 2 ^ 53 then ulpExponent a b + 1
            else ulpExponent a b)
        then JSNumber.infinity negative
        else JSNumber.finite negative
          (if roundedSignificand a b = 2 ^ 53 then 2 ^ 52 else roundedSignificand a b)
          (if roundedSignificand a b = 2 ^ 53 then ulpExponent a b + 1 else ulpExponent a b) := by
  simp [roundToBinary64, ha]

theorem one_lt_two_rat : (1 : ℚ) < 2 := by norm_num

theorem ulpExponent_ge (a b : Nat) : -1074 ≤ ulpExponent a b := by
  unfold ulpExponent
  have := le_max_right (floorLog2 a b) (-1022)
  omega

theorem floorLog2_le_ulp (a b : Nat) : floorLog2 a b + 1 ≤ ulpExponent a b + 53 := by
  unfold ulpExponent
  have := le_max_left (floorLog2 a b) (-1022)
  omega

/-- The scaled value `(a / b) / 2 ^ ulp` is below `2 ^ 53`. -/
theorem scaled_lt (a b : Nat) (ha : 0 < a) (hb : 0 < b) :
    ((a : ℚ) / b) / (2 : ℚ) ^ ulpExponent a b < 2 ^ 53 := by
  have hpos : (0 : ℚ) < (2 : ℚ) ^ ulpExponent a b := by positivity
  rw [div_lt_iff₀ hpos]
  have h1 := (floorLog2_spec a b ha hb).2
  have h2 : (2 : ℚ) ^ (floorLog2 a b + 1) ≤ (2 : ℚ) ^ (ulpExponent a b + 53) :=
    zpow_le_zpow_right₀ (le_of_lt one_lt_two_rat) (floorLog2_le_ulp a b)
  have h3 : (2 : ℚ) ^ (ulpExponent a b + 53) = 2 ^ 53 * (2 : ℚ) ^ ulpExponent a b := by
    rw [zpow_add₀ (by norm_num : (2 : ℚ) ≠ 0)]
    rw [mul_comm]
    norm_num
  linarith

/-- For a value in the normal range the scaled value is at least `2 ^ 52`. -/
theorem scaled_ge (a b : Nat) (ha : 0 < a) (hb : 0 < b) (hn : -1022 ≤ floorLog2 a b) :
    (2 : ℚ) ^ 52 ≤ ((a : ℚ) / b) / (2 : ℚ) ^ ulpExponent a b := by
  have hpos : (0 : ℚ) < (2 : ℚ) ^ ulpExponent a b := by positivity
  rw [le_div_iff₀ hpos]
  have h1 := (floorLog2_spec a b ha hb).1
  have hE : ulpExponent a b = floorLog2 a b - 52 := by
    unfold ulpExponent
    rw [max_eq_left hn]
  have h3 : (2 : ℚ) ^ floorLog2 a b = 2 ^ 52 * (2 : ℚ) ^ ulpExponent a b := by
    rw [hE, zpow_sub₀ (by norm_num : (2 : ℚ) ≠ 0)]
    norm_num
    field_simp
  linarith

theorem roundedSignificand_le (a b : Nat) (ha : 0 < a) (hb : 0 < b) :
    roundedSignificand a b ≤ 2 ^ 53 := by
  have hd : 0 < b * 2 ^ (ulpExponent a b).toNat := Nat.mul_pos hb (by positivity)
  apply roundHalfEven_le _ _ _ hd
  rw [scaled_ratio a b _ hb]
  have := scaled_lt a b ha hb
  push_cast
  linarith

theorem roundedSignificand_ge (a b : Nat) (ha : 0 < a) (hb : 0 < b)
    (hn : -1022 ≤ floorLog2 a b) : 2 ^ 52 ≤ roundedSignificand a b := by
  have hd : 0 < b * 2 ^ (ulpExponent a b).toNat := Nat.mul_pos hb (by positivity)
  apply roundHalfEven_ge _ _ _ hd
  rw [scaled_ratio a b _ hb]
  have := scaled_ge a b ha hb hn
  push_cast
  linarith

/-- A finite result of `roundToBinary64` is a binary64 number in canonical
form, has the requested sign, and its value is the rounded significand times
the unit in the last place. -/
theorem roundToBinary64_finite (negative s : Bool) (a b m : Nat) (e : Int)
    (ha : 0 < a) (hb : 0 < b)
    (h : roundToBinary64 negative a b = JSNumber.finite s m e) :
    s = negative ∧ IsBinary64 m e
      ∧ (m : ℚ) * (2 : ℚ) ^ e
          = (roundedSignificand a b : ℚ) * (2 : ℚ) ^ ulpExponent a b := by
  rw [roundToBinary64_unfold negative a b (Nat.pos_iff_ne_zero.mp ha)] at h
  have hle := roundedSignificand_le a b ha hb
  have hge := ulpExponent_ge a b
  by_cases hc : roundedSignificand a b = 2 ^ 53
  · simp only [hc, if_true] at h
    split at h
    · cases h
    · next hnot =>
      have hinj := JSNumber.finite.inj h
      obtain ⟨h1, h2, h3⟩ := hinj
      subst h1 h2 h3
      refine ⟨rfl, ⟨by norm_num, by omega, by omega, Or.inl (le_refl _)⟩, ?_⟩
      rw [hc, zpow_add₀ (by norm_num : (2 : ℚ) ≠ 0)]
      push_cast
      ring
  · simp only [hc, if_false] at h
    split at h
    · cases h
    · next hnot =>
      have hinj := JSNumber.finite.inj h
      obtain ⟨h1, h2, h3⟩ := hinj
      subst h1 h2 h3
      refine ⟨rfl, ⟨by omega, hge, by omega, ?_⟩, rfl⟩
      by_cases hn : -1022 ≤ floorLog2 a b
      · exact Or.inl (roundedSignificand_ge a b ha hb hn)
      · right
        unfold ulpExponent
        rw [max_eq_right (by omega)]
        norm_num

theorem overflowBound_cast : (overflowBound : ℚ) = 2 ^ 1024 - 2 ^ 970 := by
  unfold overflowBound
  rw [Nat.cast_sub (Nat.pow_le_pow_right (by norm_num) (by norm_num))]
  simp only [Nat.cast_pow, Nat.cast_ofNat]

theorem floorLog2_lt_of_lt (a b : Nat) (k : Nat) (ha : 0 < a) (hb : 0 < b)
    (h : (a : ℚ) / b < 2 ^ k) : floorLog2 a b < k := by
  have h1 := (floorLog2_spec a b ha hb).1
  have h2 : (2 : ℚ) ^ floorLog2 a b < (2 : ℚ) ^ (k : ℤ) := by
    rw [zpow_natCast]
    exact lt_of_le_of_lt h1 h
  exact (zpow_lt_zpow_iff_right₀ one_lt_two_rat).mp h2

set_option exponentiation.threshold 4000 in
/-- Below the overflow bound the result of `roundToBinary64` is finite. -/
theorem roundToBinary64_isFinite (negative : Bool) (a b : Nat) (hb : 0 < b)
    (h : (a : ℚ) / b < (overflowBound : ℚ)) :
    ∃ m e, roundToBinary64 negative a b = JSNumber.finite negative m e := by
  by_cases ha0 : a = 0
  · exact ⟨0, -1074, by simp [roundToBinary64, ha0]⟩
  have ha : 0 < a := Nat.pos_of_ne_zero ha0
  rw [roundToBinary64_unfold negative a b ha0]
  rw [overflowBound_cast] at h
  have hlt : (a : ℚ) / b < 2 ^ 1024 := by
    have : (0 : ℚ) < 2 ^ 970 := by positivity
    linarith
  have hL : floorLog2 a b < 1024 := by
    have := floorLog2_lt_of_lt a b 1024 ha hb hlt
    exact_mod_cast this
  have hE : ulpExponent a b ≤ 971 := by
    unfold ulpExponent
    have : max (floorLog2 a b) (-1022) ≤ 1023 := max_le (by omega) (by norm_num)
    omega
  have hM : ulpExponent a b = 971 → roundedSignificand a b ≠ 2 ^ 53 := by
    intro h971 hc
    have hspec := abs_le.mp (roundedSignificand_spec a b hb)
    rw [hc, h971] at hspec
    have hpow : (2 : ℚ) ^ (971 : ℤ) = 2 ^ 971 := zpow_ofNat 2 971
    rw [hpow] at hspec
    have hl := hspec.1
    have hx : (a : ℚ) / b / 2 ^ 971 < 2 ^ 53 - 1 / 2 := by
      rw [div_lt_iff₀ (by positivity)]
      have e : ((2 : ℚ) ^ 53 - 1 / 2) * 2 ^ 971 = 2 ^ 1024 - 2 ^ 970 := by norm_num
      rw [e]; exact h
    push_cast at hl
    linarith
  by_cases hc : roundedSignificand a b = 2 ^ 53
  · have hne : ulpExponent a b ≠ 971 := fun h971 => hM h971 hc
    have hnot : ¬ (971 : ℤ) < ulpExponent a b + 1 := by omega
    simp only [hc, if_true, hnot, if_false]
    exact ⟨_, _, rfl⟩
  · have hnot : ¬ (971 : ℤ) < ulpExponent a b := by omega
    simp only [hc, if_false, hnot]
    exact ⟨_, _, rfl⟩

/-- At or above `2 ^ 1024` the result of `roundToBinary64` is an infinity. -/
theorem roundToBinary64_infinity (negative : Bool) (a b : Nat) (ha : 0 < a) (hb : 0 < b)
    (h : (2 : ℚ) ^ 1024 ≤ (a : ℚ) / b) :
    roundToBinary64 negative a b = JSNumber.infinity negative := by
  rw [roundToBinary64_unfold negative a b (Nat.pos_iff_ne_zero.mp ha)]
  have h1 := (floorLog2_spec a b ha hb).2
  have h2 : (2 : ℚ) ^ ((1024 : ℕ) : ℤ) < (2 : ℚ) ^ (floorLog2 a b + 1) := by
    rw [zpow_natCast]
    exact lt_of_le_of_lt h h1
  have hL : ((1024 : ℕ) : ℤ) < floorLog2 a b + 1 :=
    (zpow_lt_zpow_iff_right₀ one_lt_two_rat).mp h2
  have hE : 971 < ulpExponent a b := by
    unfold ulpExponent
    have := le_max_left (floorLog2 a b) (-1022)
    push_cast at hL
    omega
  by_cases hc : roundedSignificand a b = 2 ^ 53
  · have : (971 : ℤ) < ulpExponent a b + 1 := by omega
    simp only [hc, if_true, this]
  · simp only [hc, if_false, hE, if_true]

theorem nearest_integer (M K : Nat) (t : ℚ) (h : |(M : ℚ) - t| ≤ 1 / 2) :
    |(M : ℚ) - t| ≤ |(K : ℚ) - t| := by
  by_cases hk : K = M
  · rw [hk]
  · have h1 : (1 : ℚ) ≤ |(K : ℚ) - M| := by
      rcases Nat.lt_or_gt_of_ne hk with hlt | hgt
      · have : (K : ℚ) + 1 ≤ M := by exact_mod_cast hlt
        rw [abs_sub_comm, abs_of_nonneg (by linarith)]
        linarith
      · have : (M : ℚ) + 1 ≤ K := by exact_mod_cast hgt
        rw [abs_of_nonneg (by linarith)]
        linarith
    have h2 : |(K : ℚ) - M| ≤ |(K : ℚ) - t| + |(M : ℚ) - t| := by
      have := abs_sub_le (K : ℚ) t M
      rw [abs_sub_comm t (M : ℚ)] at this
      exact this
    linarith

/-- A finite result of `roundToBinary64` is at least as close to `a / b` as
every non-negative binary64 number. -/
theorem roundToBinary64_nearest (negative s : Bool) (a b m : Nat) (e : Int)
    (ha : 0 < a) (hb : 0 < b)
    (h : roundToBinary64 negative a b = JSNumber.finite s m e)
    (m' : Nat) (e' : Int) (hd : IsBinary64 m' e') :
    |(m : ℚ) * (2 : ℚ) ^ e - (a : ℚ) / b| ≤ |(m' : ℚ) * (2 : ℚ) ^ e' - (a : ℚ) / b| := by
  obtain ⟨_, _, hval⟩ := roundToBinary64_finite negative s a b m e ha hb h
  rw [hval]
  have hpos : (0 : ℚ) < (2 : ℚ) ^ ulpExponent a b := by positivity
  have hspec := roundedSignificand_spec a b hb
  have two_ne : (2 : ℚ) ≠ 0 := by norm_num
  -- everything is measured in units of the last place
  have hx : (a : ℚ) / b
      = ((a : ℚ) / b / (2 : ℚ) ^ ulpExponent a b) * (2 : ℚ) ^ ulpExponent a b := by
    rw [div_mul_cancel₀ _ (ne_of_gt hpos)]
  have hu : (m' : ℚ) * (2 : ℚ) ^ e'
      = ((m' : ℚ) * (2 : ℚ) ^ (e' - ulpExponent a b)) * (2 : ℚ) ^ ulpExponent a b := by
    rw [mul_assoc, ← zpow_add₀ two_ne]
    congr 2
    ring
  have key : |(roundedSignificand a b : ℚ) - (a : ℚ) / b / (2 : ℚ) ^ ulpExponent a b|
      ≤ |(m' : ℚ) * (2 : ℚ) ^ (e' - ulpExponent a b)
          - (a : ℚ) / b / (2 : ℚ) ^ ulpExponent a b| := by
    rcases le_or_lt (ulpExponent a b) e' with hle | hlt
    · obtain ⟨k, hk⟩ := Int.eq_ofNat_of_zero_le (sub_nonneg.mpr hle)
      have hK : (m' : ℚ) * (2 : ℚ) ^ (e' - ulpExponent a b) = ((m' * 2 ^ k : Nat) : ℚ) := by
        rw [hk, zpow_natCast]
        push_cast
        rfl
      rw [hK]
      exact nearest_integer _ _ _ hspec
    · obtain ⟨hm', he1, _, _⟩ := hd
      have hn : -1022 ≤ floorLog2 a b := by
        by_contra hcon
        have : ulpExponent a b = -1074 := by
          unfold ulpExponent
          rw [max_eq_right (by omega)]
          norm_num
        omega
      have hge := scaled_ge a b ha hb hn
      have hsmall : (m' : ℚ) * (2 : ℚ) ^ (e' - ulpExponent a b) < 2 ^ 52 := by
        have h1 : (2 : ℚ) ^ (e' - ulpExponent a b) ≤ (2 : ℚ) ^ (-1 : ℤ) :=
          zpow_le_zpow_right₀ (le_of_lt one_lt_two_rat) (by omega)
        have h2 : (m' : ℚ) < 2 ^ 53 := by exact_mod_cast hm'
        have h3 : (0 : ℚ) < (2 : ℚ) ^ (e' - ulpExponent a b) := by positivity
        have h4 : (2 : ℚ) ^ (-1 : ℤ) = 1 / 2 := by norm_num
        calc (m' : ℚ) * (2 : ℚ) ^ (e' - ulpExponent a b)
            < 2 ^ 53 * (2 : ℚ) ^ (e' - ulpExponent a b) := by
              exact mul_lt_mul_of_pos_right h2 h3
          _ ≤ 2 ^ 53 * (2 : ℚ) ^ (-1 : ℤ) := by
              exact mul_le_mul_of_nonneg_left h1 (by positivity)
          _ = 2 ^ 52 := by rw [h4]; norm_num
      have hnear := nearest_integer (roundedSignificand a b) (2 ^ 52)
        ((a : ℚ) / b / (2 : ℚ) ^ ulpExponent a b) hspec
      have h52 : (((2 ^ 52 : Nat) : ℚ)) = 2 ^ 52 := by norm_num
      rw [h52] at hnear
      have e1 : |(2 : ℚ) ^ 52 - (a : ℚ) / b / (2 : ℚ) ^ ulpExponent a b|
          = (a : ℚ) / b / (2 : ℚ) ^ ulpExponent a b - 2 ^ 52 := by
        rw [abs_sub_comm, abs_of_nonneg (by linarith)]
      have e2 : |(m' : ℚ) * (2 : ℚ) ^ (e' - ulpExponent a b)
            - (a : ℚ) / b / (2 : ℚ) ^ ulpExponent a b|
          = (a : ℚ) / b / (2 : ℚ) ^ ulpExponent a b
              - (m' : ℚ) * (2 : ℚ) ^ (e' - ulpExponent a b) := by
        rw [abs_sub_comm, abs_of_nonneg (by linarith)]
      rw [e2]
      rw [e1] at hnear
      linarith
  have hl : |(roundedSignificand a b : ℚ) * (2 : ℚ) ^ ulpExponent a b - (a : ℚ) / b|
      = |(roundedSignificand a b : ℚ) - (a : ℚ) / b / (2 : ℚ) ^ ulpExponent a b|
          * (2 : ℚ) ^ ulpExponent a b := by
    rw [← abs_of_pos hpos, ← abs_mul, abs_of_pos hpos, sub_mul, ← hx]
  have hr : |(m' : ℚ) * (2 : ℚ) ^ e' - (a : ℚ) / b|
      = |(m' : ℚ) * (2 : ℚ) ^ (e' - ulpExponent a b)
            - (a : ℚ) / b / (2 : ℚ) ^ ulpExponent a b| * (2 : ℚ) ^ ulpExponent a b := by
    rw [← abs_of_pos hpos, ← abs_mul, abs_of_pos hpos, sub_mul, ← hx, ← hu]
  rw [hl, hr]
  exact mul_le_mul_of_nonneg_right key (le_of_lt hpos)

/-! ## Lemmas on `parsePrice` -/

theorem isDigit_ne_period {c : Char} (h : c.isDigit = true) : c ≠ '.' := by
  rintro rfl; revert h; decide

theorem isDigit_ne_comma {c : Char} (h : c.isDigit = true) : c ≠ ',' := by
  rintro rfl; revert h; decide

theorem isDigit_ne_minus {c : Char} (h : c.isDigit = true) : c ≠ '-' := by
  rintro rfl; revert h; decide

theorem isDigit_ne_plus {c : Char} (h : c.isDigit = true) : c ≠ '+' := by
  rintro rfl; revert h; decide

theorem isPriceChar_of_isDigit {c : Char} (h : c.isDigit = true) : isPriceChar c = true := by
  simp [isPriceChar, h]

theorem filter_nil_of_forall_false {p : Char → Bool} :
    ∀ l : List Char, (∀ c ∈ l, p c = false) → l.filter p = [] := by
  intro l
  induction l with
  | nil => intro _; rfl
  | cons c cs ih =>
    intro h
    have hc := h c (List.mem_cons_self _ _)
    have hcs : ∀ c' ∈ cs, p c' = false := fun c' m => h c' (List.mem_cons_of_mem _ m)
    simp [List.filter, hc, ih hcs]

theorem filter_self_of_forall_true {p : Char → Bool} :
    ∀ l : List Char, (∀ c ∈ l, p c = true) → l.filter p = l := by
  intro l
  induction l with
  | nil => intro _; rfl
  | cons c cs ih =>
    intro h
    have hc := h c (List.mem_cons_self _ _)
    have hcs : ∀ c' ∈ cs, p c' = true := fun c' m => h c' (List.mem_cons_of_mem _ m)
    simp [List.filter, hc, ih hcs]

theorem filter_eq_of_forall_eq (p q : Char → Bool) :
    ∀ l : List Char, (∀ c ∈ l, p c = q c) → l.filter p = l.filter q := by
  intro l
  induction l with
  | nil => intro _; rfl
  | cons c cs ih =>
    intro h
    have hc := h c (List.mem_cons_self _ _)
    have hcs : ∀ c' ∈ cs, p c' = q c' := fun c' m => h c' (List.mem_cons_of_mem _ m)
    simp only [List.filter, hc, ih hcs]

theorem replaceFirstComma_append (l r : List Char) (h : ∀ c ∈ l, c ≠ ',') :
    replaceFirstComma (l ++ r) = l ++ replaceFirstComma r := by
  induction l with
  | nil => rfl
  | cons c cs ih =>
    have hc := h c (List.mem_cons_self _ _)
    have hcs : ∀ c' ∈ cs, c' ≠ ',' := fun c' m => h c' (List.mem_cons_of_mem _ m)
    simp [replaceFirstComma, hc, ih hcs]

theorem takeWhile_digits_append (ds rest : List Char) (hds : ∀ c ∈ ds, c.isDigit = true)
    (hrest : ∀ c, rest.head? = some c → c.isDigit = false) :
    (ds ++ rest).takeWhile Char.isDigit = ds
      ∧ (ds ++ rest).dropWhile Char.isDigit = rest := by
  induction ds with
  | nil =>
    cases rest with
    | nil => exact ⟨rfl, rfl⟩
    | cons c cs =>
      have hc := hrest c rfl
      simp [List.takeWhile, List.dropWhile, hc]
  | cons d ds ih =>
    have hd := hds d (List.mem_cons_self _ _)
    have hds' : ∀ c ∈ ds, c.isDigit = true := fun c m => hds c (List.mem_cons_of_mem _ m)
    obtain ⟨h1, h2⟩ := ih hds'
    simp [List.takeWhile, List.dropWhile, hd, h1, h2]

theorem digitsValue_foldl (ds : List Char) :
    ∀ n : Nat, ds.foldl (fun n c => 10 * n + (c.toNat - 48)) n
      = n * 10 ^ ds.length + digitsValue ds := by
  induction ds with
  | nil => intro n; simp [digitsValue]
  | cons d ds ih =>
    intro n
    simp only [List.foldl_cons, digitsValue, List.length_cons]
    rw [ih (10 * n + (d.toNat - 48)), ih (10 * 0 + (d.toNat - 48))]
    simp only [digitsValue]
    ring

theorem digitsValue_append (xs ys : List Char) :
    digitsValue (xs ++ ys) = digitsValue xs * 10 ^ ys.length + digitsValue ys := by
  unfold digitsValue
  rw [List.foldl_append, digitsValue_foldl ys]
  rfl

/-- The string `cleaned` of a price in European notation. -/
theorem cleaned_priceChars (before after intPart fracPart : List Char) (negative comma : Bool)
    (hpre : ∀ c ∈ before, isPriceChar c = false) (hpost : ∀ c ∈ after, isPriceChar c = false)
    (hint : ∀ c ∈ intPart, c.isDigit = true ∨ c = '.')
    (hfrac : ∀ c ∈ fracPart, c.isDigit = true) :
    cleaned (String.mk (priceChars before negative intPart comma fracPart after))
      = (if negative then ['-'] else []) ++ (intPart.filter Char.isDigit
          ++ (if comma then '.' :: fracPart else [])) := by
  have hsign : ∀ c ∈ (if negative then ['-'] else []), c = '-' := by
    intro c m; cases negative <;> simp at m; exact m
  have hcomma : ∀ c ∈ (if comma then ',' :: fracPart else []),
      c = ',' ∨ c.isDigit = true := by
    intro c m
    cases comma
    · simp at m
    · rcases List.mem_cons.mp m with h | h
      · exact Or.inl h
      · exact Or.inr (hfrac c h)
  have h1 : (priceChars before negative intPart comma fracPart after).filter isPriceChar
      = (if negative then ['-'] else []) ++ intPart
          ++ (if comma then ',' :: fracPart else []) := by
    unfold priceChars
    rw [List.filter_append, List.filter_append, List.filter_append, List.filter_append,
      filter_nil_of_forall_false before hpre, filter_nil_of_forall_false after hpost,
      filter_self_of_forall_true _ (fun c m => by rw [hsign c m]; decide),
      filter_self_of_forall_true intPart (fun c m => by
        rcases hint c m with h | h
        · exact isPriceChar_of_isDigit h
        · rw [h]; decide),
      filter_self_of_forall_true _ (fun c m => by
        rcases hcomma c m with h | h
        · rw [h]; decide
        · exact isPriceChar_of_isDigit h)]
    simp
  have h2 : ((if negative then ['-'] else []) ++ intPart
        ++ (if comma then ',' :: fracPart else [])).filter (fun c => !(c == '.'))
      = (if negative then ['-'] else []) ++ intPart.filter Char.isDigit
          ++ (if comma then ',' :: fracPart else []) := by
    rw [List.filter_append, List.filter_append,
      filter_self_of_forall_true _ (fun c m => by rw [hsign c m]; decide),
      filter_self_of_forall_true (if comma then ',' :: fracPart else []) (fun c m => by
        rcases hcomma c m with h | h
        · rw [h]; decide
        · simp [isDigit_ne_period h]),
      filter_eq_of_forall_eq (fun c => !(c == '.')) Char.isDigit intPart (fun c m => by
        rcases hint c m with h | h
        · simp [isDigit_ne_period h, h]
        · rw [h]; decide)]
  have h3 : ∀ c ∈ (if negative then ['-'] else []) ++ intPart.filter Char.isDigit, c ≠ ',' := by
    intro c m
    rcases List.mem_append.mp m with h | h
    · rw [hsign c h]; decide
    · exact isDigit_ne_comma (List.of_mem_filter h)
  show replaceFirstComma (List.filter (fun c => !(c == '.'))
    (List.filter isPriceChar (priceChars before negative intPart comma fracPart after))) = _
  rw [h1, h2, replaceFirstComma_append _ _ h3, List.append_assoc]
  cases comma <;> simp [replaceFirstComma]

theorem takeWhile_all_digits (fp : List Char) (h : ∀ c ∈ fp, c.isDigit = true) :
    fp.takeWhile Char.isDigit = fp := by
  have := (takeWhile_digits_append fp [] h (by intro c hc; simp at hc)).1
  simpa using this

theorem scanDecimal_literal (negative comma : Bool) (ds fp : List Char)
    (hds : ∀ c ∈ ds, c.isDigit = true) (hne : ds ≠ [])
    (hfp : ∀ c ∈ fp, c.isDigit = true) (hc : comma = false → fp = []) :
    scanDecimal ((if negative then ['-'] else []) ++ (ds ++ (if comma then '.' :: fp else [])))
      = some ⟨negative, digitsValue (ds ++ fp), fp.length⟩ := by
  have hsplit : splitSign ((if negative then ['-'] else [])
      ++ (ds ++ (if comma then '.' :: fp else [])))
      = (negative, ds ++ (if comma then '.' :: fp else [])) := by
    cases negative
    · cases ds with
      | nil => exact absurd rfl hne
      | cons d ds' =>
        have hd := hds d (List.mem_cons_self _ _)
        simp [splitSign, isDigit_ne_minus hd, isDigit_ne_plus hd]
    · simp [splitSign]
  have htail : ∀ c, (if comma then '.' :: fp else []).head? = some c → c.isDigit = false := by
    intro c h
    cases comma
    · simp at h
    · simp at h; rw [← h]; decide
  obtain ⟨htake, hdrop⟩ := takeWhile_digits_append ds _ hds htail
  have hfrac : fractionDigits (if comma then '.' :: fp else []) = fp := by
    cases comma
    · simp [fractionDigits, hc rfl]
    · simp [fractionDigits, takeWhile_all_digits fp hfp]
  have hemp : ds.isEmpty = false := by
    cases ds with
    | nil => exact absurd rfl hne
    | cons d ds' => rfl
  simp only [scanDecimal, hsplit, htake, hdrop, hfrac, hemp, Bool.false_and]
  rfl

theorem truthy_mk (l : List Char) (h : l ≠ []) : truthy (some (String.mk l)) = true := by
  have : String.mk l ≠ "" := by
    intro he
    exact h (congrArg String.data he)
  simp [truthy, this]

theorem replaceFirstComma_no_digit :
    ∀ l : List Char, (∀ c ∈ l, c.isDigit = false) →
      ∀ c ∈ replaceFirstComma l, c.isDigit = false := by
  intro l
  induction l with
  | nil => intro _ c m; cases m
  | cons a as ih =>
    intro h c m
    have ha := h a (List.mem_cons_self _ _)
    have has : ∀ c' ∈ as, c'.isDigit = false := fun c' m' => h c' (List.mem_cons_of_mem _ m')
    by_cases hc : a = ','
    · simp only [replaceFirstComma, hc, beq_self_eq_true, if_true] at m
      rcases List.mem_cons.mp m with rfl | m'
      · decide
      · exact has c m'
    · simp only [replaceFirstComma, beq_iff_eq, hc, if_false] at m
      rcases List.mem_cons.mp m with rfl | m'
      · exact ha
      · exact ih has c m'

theorem takeWhile_nil_of_no_digit (l : List Char) (h : ∀ c ∈ l, c.isDigit = false) :
    l.takeWhile Char.isDigit = [] ∧ l.dropWhile Char.isDigit = l := by
  cases l with
  | nil => exact ⟨rfl, rfl⟩
  | cons a as =>
    have ha := h a (List.mem_cons_self _ _)
    simp [List.takeWhile, List.dropWhile, ha]

theorem splitSign_subset (s : List Char) : ∀ c ∈ (splitSign s).2, c ∈ s := by
  cases s with
  | nil => intro c m; exact m
  | cons a as =>
    intro c m
    simp only [splitSign] at m
    by_cases h1 : (a == '-') = true
    · rw [if_pos h1] at m; exact List.mem_cons_of_mem _ m
    · rw [if_neg h1] at m
      by_cases h2 : (a == '+') = true
      · rw [if_pos h2] at m; exact List.mem_cons_of_mem _ m
      · rw [if_neg h2] at m; exact m

theorem scanDecimal_no_digit (s : List Char) (h : ∀ c ∈ s, c.isDigit = false) :
    scanDecimal s = none := by
  have hbody : ∀ c ∈ (splitSign s).2, c.isDigit = false :=
    fun c m => h c (splitSign_subset s c m)
  obtain ⟨htake, hdrop⟩ := takeWhile_nil_of_no_digit _ hbody
  have hfrac : fractionDigits (splitSign s).2 = [] := by
    cases hb : (splitSign s).2 with
    | nil => rfl
    | cons a as =>
      rw [hb] at hbody
      have has : ∀ c ∈ as, c.isDigit = false := fun c m => hbody c (List.mem_cons_of_mem _ m)
      unfold fractionDigits
      split
      · rfl
      · next c rest heq =>
        cases heq
        simp [(takeWhile_nil_of_no_digit as has).1]
  simp [scanDecimal, htake, hdrop, hfrac]

theorem mem_replaceFirstComma :
    ∀ l : List Char, ∀ c ∈ replaceFirstComma l, c ∈ l ∨ c = '.' := by
  intro l
  induction l with
  | nil => intro c m; cases m
  | cons a as ih =>
    intro c m
    by_cases ha : (a == ',') = true
    · simp only [replaceFirstComma, if_pos ha] at m
      rcases List.mem_cons.mp m with h | h
      · exact Or.inr h
      · exact Or.inl (List.mem_cons_of_mem _ h)
    · simp only [replaceFirstComma, if_neg ha] at m
      rcases List.mem_cons.mp m with h | h
      · exact Or.inl (h ▸ List.mem_cons_self _ _)
      · rcases ih c h with h' | h'
        · exact Or.inl (List.mem_cons_of_mem _ h')
        · exact Or.inr h'

/-- The string `cleaned` only contains digits, commas, periods and minus
signs: the characters `scanDecimal` is written for. -/
theorem cleaned_alphabet (raw : String) : ∀ c ∈ cleaned raw, isPriceChar c = true := by
  intro c m
  rcases mem_replaceFirstComma _ c m with h | h
  · exact List.of_mem_filter (List.mem_of_mem_filter h)
  · rw [h]; decide

theorem overflowBound_ge : 10 ^ 9 ≤ overflowBound := by
  unfold overflowBound; norm_num

theorem overflowBound_lt : overflowBound < 10 ^ 309 := by
  unfold overflowBound; norm_num

theorem digitsValue_replicate_zero (n : Nat) : digitsValue (List.replicate n '0') = 0 := by
  induction n with
  | zero => rfl
  | succ k ih =>
    have h : List.replicate (k + 1) '0' = ['0'] ++ List.replicate k '0' := rfl
    rw [h, digitsValue_append, ih]
    simp [digitsValue]

theorem fits_iff_abs_lt (negative : Bool) (intPart fracPart : List Char) :
    digitsValue (intPart.filter Char.isDigit ++ fracPart) < overflowBound * 10 ^ fracPart.length
      ↔ |decimalAmount negative intPart fracPart| < (overflowBound : ℚ) := by
  have hk : (0 : ℚ) < 10 ^ fracPart.length := by positivity
  have hnn : (0 : ℚ) ≤ (digitsValue (intPart.filter Char.isDigit) : ℚ)
      + (digitsValue fracPart : ℚ) / 10 ^ fracPart.length := by positivity
  have habs : |decimalAmount negative intPart fracPart|
      = ((digitsValue (intPart.filter Char.isDigit ++ fracPart) : ℕ) : ℚ)
          / 10 ^ fracPart.length := by
    have hval : (digitsValue (intPart.filter Char.isDigit) : ℚ)
        + (digitsValue fracPart : ℚ) / 10 ^ fracPart.length
        = ((digitsValue (intPart.filter Char.isDigit ++ fracPart) : ℕ) : ℚ)
            / 10 ^ fracPart.length := by
      rw [digitsValue_append]
      push_cast
      field_simp
    unfold decimalAmount
    cases negative
    · simp only [Bool.false_eq_true, if_false, one_mul]
      rw [abs_of_nonneg hnn, hval]
    · simp only [if_true, neg_mul, one_mul, abs_neg]
      rw [abs_of_nonneg hnn, hval]
  rw [habs, div_lt_iff₀ hk]
  constructor
  · intro h
    exact_mod_cast h
  · intro h
    exact_mod_cast h

theorem lt_overflowBound_mul (m k : Nat) (h : m < 10 ^ 9 * 10 ^ k) :
    m < overflowBound * 10 ^ k :=
  Nat.lt_of_lt_of_le h (Nat.mul_le_mul_right _ overflowBound_ge)


theorem roundToBinary64_zero (negative : Bool) (b : Nat) :
    roundToBinary64 negative 0 b = JSNumber.finite negative 0 (-1074) := by
  simp [roundToBinary64]

theorem IsBinary64_zero : IsBinary64 0 (-1074) :=
  ⟨by norm_num, le_refl _, by norm_num, Or.inr rfl⟩

/-- A finite result of `roundToBinary64` is at least as close to `± a / b` as
every finite binary64 number of either sign. -/
theorem roundToBinary64_nearest_signed (negative s : Bool) (a b m : Nat) (e : Int)
    (hb : 0 < b) (h : roundToBinary64 negative a b = JSNumber.finite s m e)
    (s' : Bool) (m' : Nat) (e' : Int) (hd : IsBinary64 m' e') :
    |(JSNumber.finite s m e).toRat - (if negative then -1 else 1) * ((a : ℚ) / b)|
      ≤ |(JSNumber.finite s' m' e').toRat - (if negative then -1 else 1) * ((a : ℚ) / b)| := by
  by_cases ha0 : a = 0
  · subst ha0
    rw [roundToBinary64_zero] at h
    obtain ⟨h1, h2, h3⟩ := JSNumber.finite.inj h
    subst h1 h2 h3
    have : (JSNumber.finite negative 0 (-1074)).toRat
        - (if negative then -1 else 1) * (((0 : Nat) : ℚ) / b) = 0 := by
      simp [JSNumber.toRat]
    rw [this, abs_zero]
    exact abs_nonneg _
  · have ha : 0 < a := Nat.pos_of_ne_zero ha0
    obtain ⟨hs, _, _⟩ := roundToBinary64_finite negative s a b m e ha hb h
    subst hs
    have hn := roundToBinary64_nearest s s a b m e ha hb h m' e' hd
    have h0 := roundToBinary64_nearest s s a b m e ha hb h 0 (-1074) IsBinary64_zero
    have hx : (0 : ℚ) < (a : ℚ) / b := by positivity
    have hdnn : (0 : ℚ) ≤ (m' : ℚ) * (2 : ℚ) ^ e' := by positivity
    have h0' : |(m : ℚ) * (2 : ℚ) ^ e - (a : ℚ) / b| ≤ (a : ℚ) / b := by
      have e0 : |((0 : Nat) : ℚ) * (2 : ℚ) ^ (-1074 : ℤ) - (a : ℚ) / b| = (a : ℚ) / b := by
        rw [Nat.cast_zero, zero_mul, zero_sub, abs_neg, abs_of_pos hx]
      rw [e0] at h0
      exact h0
    simp only [JSNumber.toRat]
    cases s <;> cases s'
    · simpa using hn
    · simp only [Bool.false_eq_true, if_false, if_true, one_mul, neg_mul]
      have : |-((m' : ℚ) * (2 : ℚ) ^ e') - (a : ℚ) / b| = (m' : ℚ) * (2 : ℚ) ^ e' + (a : ℚ) / b := by
        rw [abs_of_nonpos (by linarith)]; ring
      rw [this]; linarith
    · simp only [Bool.false_eq_true, if_false, if_true, one_mul, neg_mul]
      have e1 : |-((m : ℚ) * (2 : ℚ) ^ e) - -((a : ℚ) / b)|
          = |(m : ℚ) * (2 : ℚ) ^ e - (a : ℚ) / b| := by
        rw [← abs_neg]; congr 1; ring
      have e2 : |(m' : ℚ) * (2 : ℚ) ^ e' - -((a : ℚ) / b)|
          = (m' : ℚ) * (2 : ℚ) ^ e' + (a : ℚ) / b := by
        rw [abs_of_nonneg (by linarith)]; ring
      rw [e1, e2]; linarith
    · simp only [if_true, neg_mul, one_mul]
      have e1 : |-((m : ℚ) * (2 : ℚ) ^ e) - -((a : ℚ) / b)|
          = |(m : ℚ) * (2 : ℚ) ^ e - (a : ℚ) / b| := by
        rw [← abs_neg]; congr 1; ring
      have e2 : |-((m' : ℚ) * (2 : ℚ) ^ e') - -((a : ℚ) / b)|
          = |(m' : ℚ) * (2 : ℚ) ^ e' - (a : ℚ) / b| := by
        rw [← abs_neg]; congr 1; ring
      rw [e1, e2]; exact hn

theorem decimalAmount_eq (negative : Bool) (intPart fracPart : List Char) :
    decimalAmount negative intPart fracPart
      = (if negative then -1 else 1)
          * (((digitsValue (intPart.filter Char.isDigit ++ fracPart) : Nat) : ℚ)
              / ((10 ^ fracPart.length : Nat) : ℚ)) := by
  simp only [decimalAmount, digitsValue_append]
  have h10 : (10 : ℚ) ^ fracPart.length ≠ 0 := pow_ne_zero _ (by norm_num)
  push_cast
  field_simp

/-- What `parsePrice` returns on a price in European notation: the Number
value for the amount when that is finite, and 0 otherwise. -/
theorem parsePrice_priceChars (before after intPart fracPart : List Char)
    (negative comma : Bool)
    (hpre : ∀ c ∈ before, isPriceChar c = false) (hpost : ∀ c ∈ after, isPriceChar c = false)
    (hint : ∀ c ∈ intPart, c.isDigit = true ∨ c = '.')
    (hdig : ∃ c ∈ intPart, c.isDigit = true)
    (hfrac : ∀ c ∈ fracPart, c.isDigit = true) (hcomma : comma = false → fracPart = []) :
    parsePrice (some (String.mk (priceChars before negative intPart comma fracPart after)))
      = if isFinite (roundToBinary64 negative
            (digitsValue (intPart.filter Char.isDigit ++ fracPart)) (10 ^ fracPart.length))
        then roundToBinary64 negative
            (digitsValue (intPart.filter Char.isDigit ++ fracPart)) (10 ^ fracPart.length)
        else JSNumber.zero := by
  obtain ⟨d, hdm, hdd⟩ := hdig
  have hne : priceChars before negative intPart comma fracPart after ≠ [] := by
    intro h
    have : d ∈ priceChars before negative intPart comma fracPart after := by
      unfold priceChars
      simp [hdm]
    rw [h] at this
    cases this
  have hds : ∀ c ∈ intPart.filter Char.isDigit, c.isDigit = true :=
    fun c m => List.of_mem_filter m
  have hdsne : intPart.filter Char.isDigit ≠ [] := by
    intro h
    have : d ∈ intPart.filter Char.isDigit := List.mem_filter.mpr ⟨hdm, hdd⟩
    rw [h] at this
    cases this
  have hscan := scanDecimal_literal negative comma _ fracPart hds hdsne hfrac hcomma
  rw [← cleaned_priceChars before after intPart fracPart negative comma hpre hpost hint hfrac]
    at hscan
  simp only [parsePrice, truthy_mk _ hne, Bool.not_true, Bool.false_eq_true, if_false,
    Option.getD_some, parseFloat, hscan]

theorem parsePrice_no_digit (s : String) (h : ∀ c ∈ s.data, c.isDigit = false) :
    parsePrice (some s) = JSNumber.zero := by
  have hclean : ∀ c ∈ cleaned s, c.isDigit = false := by
    apply replaceFirstComma_no_digit
    intro c m
    exact h c (List.mem_of_mem_filter (List.mem_of_mem_filter m))
  unfold parsePrice
  split
  · rfl
  · simp [parseFloat, scanDecimal_no_digit _ hclean, isFinite]

theorem parsePrice_isFinite (raw : Option String) : isFinite (parsePrice raw) = true := by
  unfold parsePrice
  split
  · rfl
  · simp only
    split
    · assumption
    · rfl

theorem qtyOrOne_of_pos (qty : Int) (h : 1 ≤ qty) : qtyOrOne qty = JSNumber.ofInt qty := by
  have : qty ≠ 0 := by omega
  simp [qtyOrOne, this]

theorem renderCart_loop (cart : Cart) :
    ∀ acc : JSNumber, (∀ e ∈ cart, 1 ≤ e.qty) →
      cart.foldl
          (fun total item => total.add ((parsePrice item.price).mul (qtyOrOne item.qty))) acc
        = (cart.map (fun e => (parsePrice e.price).mul (JSNumber.ofInt e.qty))).foldl
            JSNumber.add acc := by
  induction cart with
  | nil => intro acc _; rfl
  | cons e es ih =>
    intro acc h
    have he : 1 ≤ e.qty := h e (List.mem_cons_self _ _)
    have hes : ∀ e' ∈ es, 1 ≤ e'.qty := fun e' m => h e' (List.mem_cons_of_mem _ m)
    simp only [List.foldl_cons, List.map_cons]
    rw [qtyOrOne_of_pos e.qty he]
    exact ih _ hes

theorem renderCartTotal_eq (cart : Cart) (h : ∀ e ∈ cart, 1 ≤ e.qty) :
    renderCartTotal cart
      = (cart.map (fun e => (parsePrice e.price).mul (JSNumber.ofInt e.qty))).foldl
          JSNumber.add JSNumber.zero := by
  unfold renderCartTotal
  split
  · next hlen =>
    have : cart = [] := List.length_eq_zero.mp (by simpa using hlen)
    subst this
    rfl
  · exact renderCart_loop cart JSNumber.zero h

set_option exponentiation.threshold 4000 in
set_option maxRecDepth 100000 in
theorem renderCartTotal_totalExample :
    renderCartTotal totalExample = JSNumber.finite false 7177611906121728 (-48) := by
  decide

set_option exponentiation.threshold 4000 in
set_option maxRecDepth 100000 in
theorem renderCartTotal_dimesExample :
    renderCartTotal dimesExample = JSNumber.finite false 5404319552844596 (-54) := by
  decide

theorem amount_lt_overflowBound (negative : Bool) (intPart fracPart : List Char)
    (hfit : |decimalAmount negative intPart fracPart| < (overflowBound : ℚ)) :
    ((digitsValue (intPart.filter Char.isDigit ++ fracPart) : Nat) : ℚ)
        / ((10 ^ fracPart.length : Nat) : ℚ) < (overflowBound : ℚ) := by
  have h := (fits_iff_abs_lt negative intPart fracPart).mpr hfit
  have hpos : (0 : ℚ) < ((10 ^ fracPart.length : Nat) : ℚ) := by positivity
  rw [div_lt_iff₀ hpos]
  exact_mod_cast h

set_option maxRecDepth 100000 in
theorem parsePrice_thousands :
    parsePrice (some "1.234,56") = JSNumber.finite false 5429652300748554 (-42) := by
  decide

set_option maxRecDepth 100000 in
theorem parsePrice_ten :
    parsePrice (some "10,00 €") = JSNumber.finite false 5629499534213120 (-49) := by
  decide

set_option maxRecDepth 100000 in
theorem parsePrice_above_two_pow_53 :
    parsePrice (some "9007199254740993") = JSNumber.finite false 4503599627370496 1 := by
  decide

/-! ## Claims on the total and on `parsePrice` -/

/-- C7, as the code has it. When every entry has qty at least 1, the total
computed by `renderCart` is the sum over the entries of `parsePrice(entry.price)`
times `entry.qty` in the arithmetic of JavaScript Numbers: the products are
added in cart order starting from 0, and every product and every partial sum
is rounded to the nearest binary64 value.  The total of the empty cart is 0,
and the total of `[{price:"10,00 €", qty:2}, {price:"5,50 €", qty:1}]` is
exactly 25.5. -/
theorem cart_total_is_rounded_sum (cart : Cart) (h : ∀ e ∈ cart, 1 ≤ e.qty) :
    renderCartTotal cart
        = (cart.map (fun e => (parsePrice e.price).mul (JSNumber.ofInt e.qty))).foldl
            JSNumber.add JSNumber.zero
      ∧ renderCartTotal [] = JSNumber.zero
      ∧ JSNumber.zero.toRat = 0
      ∧ renderCartTotal totalExample = JSNumber.finite false 7177611906121728 (-48)
      ∧ (JSNumber.finite false 7177611906121728 (-48)).toRat = 25.5 := by
  refine ⟨renderCartTotal_eq cart h, rfl, ?_, renderCartTotal_totalExample, ?_⟩
  · simp [JSNumber.zero, JSNumber.toRat]
  · simp only [JSNumber.toRat]
    norm_num

theorem cart_total_is_rounded_sum_witness :
    (∀ e ∈ totalExample, 1 ≤ e.qty)
      ∧ renderCartTotal totalExample
          = (totalExample.map
              (fun e => (parsePrice e.price).mul (JSNumber.ofInt e.qty))).foldl
              JSNumber.add JSNumber.zero :=
  ⟨by decide, (cart_total_is_rounded_sum totalExample (by decide)).1⟩

/-- C7 as stated fails when a partial sum is not a binary64 value: for the
cart of one item priced `0,10` and one priced `0,20`, every qty is 1 and the
total `renderCart` computes is 0.30000000000000004, which is neither the sum
of the two parsed prices nor 3/10. -/
theorem cart_total_is_not_exact_sum :
    (∀ e ∈ dimesExample, 1 ≤ e.qty)
      ∧ (renderCartTotal dimesExample).toRat
          ≠ (dimesExample.map (fun e => (parsePrice e.price).toRat * (e.qty : ℚ))).sum
      ∧ (renderCartTotal dimesExample).toRat ≠ 3 / 10 := by
  have ht := renderCartTotal_dimesExample
  have h1 : parsePrice (some "0,10") = JSNumber.finite false 7205759403792794 (-56) := by
    decide
  have h2 : parsePrice (some "0,20") = JSNumber.finite false 7205759403792794 (-55) := by
    decide
  refine ⟨by decide, ?_, ?_⟩
  · rw [ht]
    simp only [dimesExample, List.map_cons, List.map_nil, List.sum_cons, List.sum_nil, h1, h2,
      JSNumber.toRat]
    norm_num
  · rw [ht]
    simp only [JSNumber.toRat]
    norm_num

/-- C8, as the code has it. For a string made of an optional minus sign, an
integer part of digits and period separators with at least one digit, and an
optional comma followed by fraction digits, surrounded by characters other
than digits, commas, periods and minus signs, whose amount is below
`overflowBound` in magnitude, `parsePrice` returns a finite binary64 number
with the sign written in the string, and no binary64 number is nearer to the
amount it denotes; so it returns the amount itself whenever the amount is a
binary64 number.  For a string without a digit, the empty string included, it
returns 0; it never returns a non-number; `parsePrice("10,00 €")` is 10,
`parsePrice("1.234,56")` is the binary64 number nearest to 1234.56, and
`parsePrice("")` and `parsePrice("abc")` are 0. -/
theorem parsePrice_european (before after intPart fracPart : List Char)
    (negative comma : Bool)
    (hpre : ∀ c ∈ before, isPriceChar c = false) (hpost : ∀ c ∈ after, isPriceChar c = false)
    (hint : ∀ c ∈ intPart, c.isDigit = true ∨ c = '.')
    (hdig : ∃ c ∈ intPart, c.isDigit = true)
    (hfrac : ∀ c ∈ fracPart, c.isDigit = true) (hcomma : comma = false → fracPart = [])
    (hfit : |decimalAmount negative intPart fracPart| < (overflowBound : ℚ)) :
    (∃ (m : Nat) (e : Int),
        parsePrice (some (String.mk (priceChars before negative intPart comma fracPart after)))
          = JSNumber.finite negative m e
        ∧ IsBinary64 m e
        ∧ (∀ (s' : Bool) (m' : Nat) (e' : Int), IsBinary64 m' e' →
            |(JSNumber.finite negative m e).toRat - decimalAmount negative intPart fracPart|
              ≤ |(JSNumber.finite s' m' e').toRat - decimalAmount negative intPart fracPart|)
        ∧ (∀ (s' : Bool) (m' : Nat) (e' : Int), IsBinary64 m' e' →
            (JSNumber.finite s' m' e').toRat = decimalAmount negative intPart fracPart →
            (JSNumber.finite negative m e).toRat = decimalAmount negative intPart fracPart))
      ∧ (∀ s : String, (∀ c ∈ s.data, c.isDigit = false) → parsePrice (some s) = JSNumber.zero)
      ∧ (∀ raw : Option String, isFinite (parsePrice raw) = true)
      ∧ (parsePrice (some "10,00 €")).toRat = 10
      ∧ parsePrice (some "1.234,56") = roundToBinary64 false 123456 100
      ∧ parsePrice (some "") = JSNumber.zero
      ∧ parsePrice (some "abc") = JSNumber.zero
      ∧ JSNumber.zero.toRat = 0 := by
  refine ⟨?_, parsePrice_no_digit, parsePrice_isFinite, ?_, ?_,
    parsePrice_no_digit "" (by decide), parsePrice_no_digit "abc" (by decide), ?_⟩
  · have hb : 0 < 10 ^ fracPart.length := by positivity
    obtain ⟨m, e, hround⟩ := roundToBinary64_isFinite negative
      (digitsValue (intPart.filter Char.isDigit ++ fracPart)) (10 ^ fracPart.length) hb
      (amount_lt_overflowBound negative intPart fracPart hfit)
    have hparse := parsePrice_priceChars before after intPart fracPart negative comma hpre
      hpost hint hdig hfrac hcomma
    rw [hround] at hparse
    simp only [isFinite, if_true] at hparse
    have hnear : ∀ (s' : Bool) (m' : Nat) (e' : Int), IsBinary64 m' e' →
        |(JSNumber.finite negative m e).toRat - decimalAmount negative intPart fracPart|
          ≤ |(JSNumber.finite s' m' e').toRat - decimalAmount negative intPart fracPart| := by
      intro s' m' e' hd
      rw [decimalAmount_eq]
      exact roundToBinary64_nearest_signed negative negative _ _ m e hb hround s' m' e' hd
    have hcanon : IsBinary64 m e := by
      by_cases ha0 : digitsValue (intPart.filter Char.isDigit ++ fracPart) = 0
      · rw [ha0, roundToBinary64_zero] at hround
        obtain ⟨_, h2, h3⟩ := JSNumber.finite.inj hround
        rw [← h2, ← h3]
        exact IsBinary64_zero
      · exact (roundToBinary64_finite negative negative _ _ m e (Nat.pos_of_ne_zero ha0) hb
          hround).2.1
    refine ⟨m, e, hparse, hcanon, hnear, ?_⟩
    intro s' m' e' hd heq
    have h := hnear s' m' e' hd
    rw [heq, sub_self, abs_zero] at h
    have h0 := abs_nonpos_iff.mp h
    linarith
  · rw [parsePrice_ten]
    simp only [JSNumber.toRat]
    norm_num
  · rw [parsePrice_thousands]
    decide
  · simp [JSNumber.zero, JSNumber.toRat]

theorem parsePrice_european_witness :
    ∃ (m : Nat) (e : Int),
      parsePrice (some "-1.234,56 €") = JSNumber.finite true m e
      ∧ IsBinary64 m e
      ∧ (∀ (s' : Bool) (m' : Nat) (e' : Int), IsBinary64 m' e' →
          |(JSNumber.finite true m e).toRat
              - decimalAmount true ['1', '.', '2', '3', '4'] ['5', '6']|
            ≤ |(JSNumber.finite s' m' e').toRat
              - decimalAmount true ['1', '.', '2', '3', '4'] ['5', '6']|)
      ∧ (∀ (s' : Bool) (m' : Nat) (e' : Int), IsBinary64 m' e' →
          (JSNumber.finite s' m' e').toRat
              = decimalAmount true ['1', '.', '2', '3', '4'] ['5', '6'] →
          (JSNumber.finite true m e).toRat
              = decimalAmount true ['1', '.', '2', '3', '4'] ['5', '6']) :=
  (parsePrice_european [] [' ', '€'] ['1', '.', '2', '3', '4'] ['5', '6'] true true
    (by decide) (by decide) (by decide) (by decide) (by decide) (by decide)
    ((fits_iff_abs_lt true ['1', '.', '2', '3', '4'] ['5', '6']).mp
      (lt_overflowBound_mul _ _ (by decide)))).1

/-- C8 as stated fails in two ways.  The price `9007199254740993` (that is
`2 ^ 53 + 1`) is made of digits only, and `parsePrice` returns
9007199254740992, not the amount.  The price of 310 digits `1` followed by 309
zeros denotes `10 ^ 309`, `parseFloat` reads it as `Infinity`, and
`parsePrice` returns 0. -/
theorem parsePrice_rounds_and_overflows :
    ((∀ c ∈ "9007199254740993".data, c.isDigit = true)
        ∧ decimalAmount false "9007199254740993".data [] = 9007199254740993
        ∧ (parsePrice (some "9007199254740993")).toRat = 9007199254740992
        ∧ (parsePrice (some "9007199254740993")).toRat
            ≠ decimalAmount false "9007199254740993".data [])
      ∧ ((∀ c ∈ '1' :: List.replicate 309 '0', c.isDigit = true)
        ∧ decimalAmount false ('1' :: List.replicate 309 '0') [] = 10 ^ 309
        ∧ parsePrice (some (String.mk ('1' :: List.replicate 309 '0'))) = JSNumber.zero
        ∧ (parsePrice (some (String.mk ('1' :: List.replicate 309 '0')))).toRat
            ≠ decimalAmount false ('1' :: List.replicate 309 '0') []) := by
  constructor
  · have hA : digitsValue ("9007199254740993".data.filter Char.isDigit) = 9007199254740993 := by
      decide
    have h0 : digitsValue [] = 0 := rfl
    have hamount : decimalAmount false "9007199254740993".data [] = 9007199254740993 := by
      simp only [decimalAmount, hA, h0, Bool.false_eq_true, if_false, one_mul,
        Nat.cast_zero, zero_div, add_zero, Nat.cast_ofNat]
    have hval : (parsePrice (some "9007199254740993")).toRat = 9007199254740992 := by
      rw [parsePrice_above_two_pow_53]
      simp only [JSNumber.toRat]
      norm_num
    refine ⟨by decide, hamount, hval, ?_⟩
    rw [hval, hamount]
    norm_num
  · have hdigits : ∀ c ∈ '1' :: List.replicate 309 '0', c.isDigit = true := by
      intro c m
      rcases List.mem_cons.mp m with h | h
      · rw [h]; decide
      · rw [List.eq_of_mem_replicate h]; decide
    have hfilter : ('1' :: List.replicate 309 '0').filter Char.isDigit
        = '1' :: List.replicate 309 '0' := filter_self_of_forall_true _ hdigits
    have hval : digitsValue ('1' :: List.replicate 309 '0') = 10 ^ 309 := by
      have h : '1' :: List.replicate 309 '0' = ['1'] ++ List.replicate 309 '0' := rfl
      have h1 : digitsValue ['1'] = 1 := by decide
      rw [h, digitsValue_append, digitsValue_replicate_zero, List.length_replicate, h1,
        Nat.one_mul, Nat.add_zero]
    have hamount : decimalAmount false ('1' :: List.replicate 309 '0') [] = 10 ^ 309 := by
      have h0 : digitsValue [] = 0 := rfl
      simp only [decimalAmount, hfilter, hval, h0, Bool.false_eq_true, if_false, one_mul,
        Nat.cast_zero, zero_div, add_zero, Nat.cast_pow, Nat.cast_ofNat]
    have hinf : roundToBinary64 false (10 ^ 309) (10 ^ 0) = JSNumber.infinity false := by
      apply roundToBinary64_infinity false (10 ^ 309) (10 ^ 0) (by positivity) (by positivity)
      norm_num
    have hzero : parsePrice (some (String.mk ('1' :: List.replicate 309 '0')))
        = JSNumber.zero := by
      have h := parsePrice_priceChars [] [] ('1' :: List.replicate 309 '0') [] false false
        (by intro c m; cases m) (by intro c m; cases m) (fun c m => Or.inl (hdigits c m))
        ⟨'1', List.mem_cons_self _ _, by decide⟩ (by intro c m; cases m) (fun _ => rfl)
      have hp : ∀ l : List Char, priceChars [] false l false [] [] = l := by
        intro l; simp [priceChars]
      rw [hp, hfilter, List.append_nil, hval, List.length_nil, hinf] at h
      rw [h]
      rfl
    refine ⟨hdigits, hamount, hzero, ?_⟩
    rw [hzero, hamount]
    have hz : JSNumber.zero.toRat = 0 := by simp [JSNumber.zero, JSNumber.toRat]
    rw [hz]
    exact (pow_ne_zero _ (by norm_num)).symm

end DemoMagic
